import Mathlib

/-!
Shallow embedding of the gobgp per-peer session core — the AS_PATH /
AS4_PATH reconciler and UPDATE batcher (table module), the `Path` value
with its copy-on-write attribute overlay (table/path.go), and the timer,
accounting and connect-loop computations of the FSM (server/fsm.go) —
together with theorems settling the specification claims about them.
-/

set_option autoImplicit false

namespace GoBGP

/-- AS path segment type codes of RFC 4271 and RFC 5065. -/
inductive SegT
  | set
  | seq
  | confedSeq
  | confedSet
deriving DecidableEq, Repr

/-- One `As4PathParam`: a 4-octet AS path segment. -/
structure Seg4 where
  typ : SegT
  AS : List Nat
deriving DecidableEq, Repr

/-- An AS path segment as held by a `PathAttributeAsPath`: either a
legacy 2-octet `AsPathParam` or a 4-octet `As4PathParam`. -/
inductive AsSeg
  | as2 (typ : SegT) (AS : List Nat)
  | as4 (s : Seg4)
deriving DecidableEq, Repr

/-- Modelled from the spec: `As4PathParam.ASLen` lives in the external
packet codec, not under src. It is the AS-path length contribution of a
segment in the sense of RFC 4271 9.1.2.2: each AS of an AS_SEQUENCE
counts one, an AS_SET counts one in total, and confederation segments
count zero — the source accounts for those separately in `asConfedLen`. -/
def Seg4.ASLen (s : Seg4) : Nat :=
  match s.typ with
  | .seq => s.AS.length
  | .set => 1
  | .confedSeq => 0
  | .confedSet => 0

/-- A BGP UPDATE path attribute. The wire codec types are external; only
the structure the source manipulates is modelled, with `other` covering
the attribute types no claim inspects, keyed by type code. -/
inductive PA
  | asPath (val : List AsSeg)
  | nextHop (value : Nat)
  | multiExitDisc (value : Nat)
  | localPref (value : Nat)
  | originatorId (value : Nat)
  | clusterList (value : List Nat)
  | mpReachNlri (nexthop : Nat) (nlri : Nat)
  | as4Path (val : List Seg4)
  | other (t : Nat) (payload : Nat)
deriving DecidableEq, Repr

/-- `GetType`: the BGP attribute type code. -/
def PA.GetType : PA → Nat
  | .asPath _ => 2
  | .nextHop _ => 3
  | .multiExitDisc _ => 4
  | .localPref _ => 5
  | .originatorId _ => 9
  | .clusterList _ => 10
  | .mpReachNlri _ _ => 14
  | .as4Path _ => 17
  | .other t _ => t

def PA.isAsPath : PA → Bool
  | .asPath _ => true
  | _ => false

def PA.isAs4Path : PA → Bool
  | .as4Path _ => true
  | _ => false

/-- `AS_TRANS`, RFC 6793. -/
def AS_TRANS : Nat := 23456

/-- Index and value of the first `PathAttributeAsPath` of the list — the
search loop at the top of `UpdatePathAttrs2ByteAs`. -/
def findAsPath : List PA → Option (Nat × List AsSeg)
  | [] => none
  | .asPath v :: _ => some (0, v)
  | _ :: rest => (findAsPath rest).map fun p => (p.1 + 1, p.2)

/-- The type assertion `param.(*bgp.As4PathParam)`: succeeds only on a
4-octet segment. -/
def AsSeg.asAs4 : AsSeg → Option Seg4
  | .as4 s => some s
  | .as2 _ _ => none

/-- The per-segment body of `UpdatePathAttrs2ByteAs`: the legacy 2-octet
copy of one segment, substituting `AS_TRANS` for every AS above 65535. -/
def seg2Of (s : Seg4) : AsSeg :=
  .as2 s.typ (s.AS.map fun a => if a > 65535 then AS_TRANS else a)

/-- Whether downgrading this segment substitutes at least one
`AS_TRANS`, i.e. whether it sets `mkAs4`. -/
def segNeedsAs4 (s : Seg4) : Bool := s.AS.any fun a => a > 65535

/-- Whether a segment is of a confederation type. -/
def segIsConfed (s : Seg4) : Bool :=
  s.typ = SegT.confedSeq || s.typ = SegT.confedSet

/-- The cast applied to every segment of the AS_PATH value: each must be
an `As4PathParam`. -/
def allAs4 : List AsSeg → Option (List Seg4)
  | [] => some []
  | s :: rest =>
    match s.asAs4, allAs4 rest with
    | some s4, some l => some (s4 :: l)
    | _, _ => none

/-- `UpdatePathAttrs2ByteAs`: rewrite the first AS_PATH attribute into
2-octet form, collecting the original segments — confederation segments
excluded — into an AS4_PATH appended only when a substitution happened.
`none` models the type assertion `param.(*bgp.As4PathParam)` failing on
a legacy 2-octet segment, a run-time panic in the source. -/
def UpdatePathAttrs2ByteAs (attrs : List PA) : Option (List PA) :=
  match findAsPath attrs with
  | none => some attrs
  | some (idx, val) =>
    match allAs4 val with
    | none => none
    | some segs =>
      some (attrs.set idx (.asPath (segs.map seg2Of)) ++
        if segs.any segNeedsAs4 then [.as4Path (segs.filter fun s => !segIsConfed s)]
        else [])

/-- Widening of one segment: the 2-octet case of the type switch inside
the scan loop of `UpdatePathAttrs4ByteAs`. -/
def widenSeg : AsSeg → AsSeg
  | .as2 t l => .as4 ⟨t, l⟩
  | s => s

/-- Forget the width marker of a segment; after widening this is the
type assertion `param.(*bgp.As4PathParam)` of the source. -/
def toSeg4 : AsSeg → Seg4
  | .as2 t l => ⟨t, l⟩
  | .as4 s => s

/-- Widening of one attribute: AS_PATH segments get the 4-octet form,
everything else is untouched. -/
def widenAttr : PA → PA
  | .asPath v => .asPath (v.map widenSeg)
  | a => a

/-- The scan loop of `UpdatePathAttrs4ByteAs` looking for the
`PathAttributeAsPath`: each occurrence overwrites the recorded position
and value, so the last one wins. -/
def lastAsPathGo : List PA → Nat → Option (Nat × List AsSeg) → Option (Nat × List AsSeg)
  | [], _, acc => acc
  | .asPath v :: rest, i, _ => lastAsPathGo rest (i + 1) (some (i, v))
  | _ :: rest, i, acc => lastAsPathGo rest (i + 1) acc

/-- Position and value of the last `PathAttributeAsPath`. -/
def lastAsPath (attrs : List PA) : Option (Nat × List AsSeg) :=
  lastAsPathGo attrs 0 none

/-- The scan loop of `UpdatePathAttrs4ByteAs` looking for the
`PathAttributeAs4Path`; the last occurrence wins. -/
def lastAs4PathGo : List PA → Nat → Option (Nat × List Seg4) → Option (Nat × List Seg4)
  | [], _, acc => acc
  | .as4Path v :: rest, i, _ => lastAs4PathGo rest (i + 1) (some (i, v))
  | _ :: rest, i, acc => lastAs4PathGo rest (i + 1) acc

/-- Position and value of the last `PathAttributeAs4Path`. -/
def lastAs4Path (attrs : List PA) : Option (Nat × List Seg4) :=
  lastAs4PathGo attrs 0 none

/-- The `asConfedLen` accounting of `UpdatePathAttrs4ByteAs`: an
AS_CONFED_SET counts 1, an AS_CONFED_SEQUENCE counts its ASes. -/
def Seg4.confedLen (s : Seg4) : Nat :=
  match s.typ with
  | .confedSet => 1
  | .confedSeq => s.AS.length
  | _ => 0

def asLenOf (ps : List Seg4) : Nat := (ps.map Seg4.ASLen).sum

def confedLenOf (ps : List Seg4) : Nat := (ps.map Seg4.confedLen).sum

/-- The keep loop of `UpdatePathAttrs4ByteAs`: keep leading segments
while `keepNum` is not exhausted, truncating the segment that would
overshoot and stopping as soon as `keepNum` reaches zero. -/
def keepLoop : List Seg4 → Nat → List Seg4
  | [], _ => []
  | p :: rest, k =>
    if p.ASLen ≤ k then
      if k - p.ASLen = 0 then [p] else p :: keepLoop rest (k - p.ASLen)
    else
      [⟨p.typ, p.AS.take k⟩]

/-- The graft loop of `UpdatePathAttrs4ByteAs`: append each AS4_PATH
segment, merging into the previous segment when both are AS_SEQUENCE and
splitting at 255 otherwise. `none` models the two run-time panics of the
source (grafting onto an empty list, and a negative re-slice index). The
split re-slices `param.AS` with an index computed after `lastParam` has
already grown, exactly as the source line does. -/
def graft : List Seg4 → List Seg4 → Option (List Seg4)
  | acc, [] => some acc
  | acc, p :: rest =>
    match acc.getLast? with
    | none => none
    | some lastP =>
      if p.typ = lastP.typ ∧ p.typ = SegT.seq then
        if 255 < lastP.AS.length + p.AS.length then
          if 255 < lastP.AS.length then none
          else
            let lastA := lastP.AS ++ p.AS.take (255 - lastP.AS.length)
            let pA := p.AS.drop (255 - lastA.length)
            graft (acc.dropLast ++ [⟨SegT.seq, lastA⟩, ⟨SegT.seq, pA⟩]) rest
        else
          graft (acc.dropLast ++ [⟨SegT.seq, lastP.AS ++ p.AS⟩]) rest
      else graft (acc ++ [p]) rest

/-- The merge core of `UpdatePathAttrs4ByteAs`: given the widened
AS_PATH segments and the already-filtered AS4_PATH segments, the merged
segment list (keep prefix, then graft). -/
def reconcileCore (asParams as4Params : List Seg4) : Option (List Seg4) :=
  let keepNum := asLenOf asParams + confedLenOf asParams - asLenOf as4Params
  graft (keepLoop asParams keepNum) as4Params

/-- `UpdatePathAttrs4ByteAs`: widen every AS_PATH segment to 4-octet
form, remove the AS4_PATH attribute, and when both attributes are
present either discard the AS4_PATH (when it is longer than the whole
AS_PATH) or merge it onto the kept prefix of the AS_PATH. `none` models
the run-time panics of the source (graft onto an empty segment list,
write-back at an out-of-range index). -/
def UpdatePathAttrs4ByteAs (attrs : List PA) : Option (List PA) :=
  let attrs1 := attrs.map widenAttr
  let attrs2 := match lastAs4Path attrs1 with
    | some (j, _) => attrs1.eraseIdx j
    | none => attrs1
  match lastAsPath attrs1, lastAs4Path attrs1 with
  | some (asAttrPos, asVal), some (_, as4Val) =>
    let asParams := asVal.map toSeg4
    let as4Params := as4Val.filter fun s => !segIsConfed s
    if asLenOf asParams + confedLenOf asParams < asLenOf as4Params then
      some attrs2
    else
      match reconcileCore asParams as4Params with
      | none => none
      | some merged =>
        if asAttrPos < attrs2.length then
          some (attrs2.set asAttrPos (.asPath (merged.map AsSeg.as4)))
        else none
  | _, _ => some attrs2

/-- A serialized path attribute as the UPDATE batcher sees it: its BGP
type code and its serialized octets (the wire codec is external to src;
`v.Serialize()` and `a.Len()` are abstracted by the octet string, whose
length is the serialized attribute length). -/
structure BAttr where
  typ : Nat
  octets : List Nat
deriving DecidableEq, Repr

/-- `a.Len()`: the serialized length of the attribute. -/
def BAttr.Len (a : BAttr) : Nat := a.octets.length

/-- Modelled from the spec: the serialization of
`NewPathAttributeMpUnreachNLRI` built by the wire codec (not under src)
from an NLRI octet string — attribute header (extended-length above 255
octets of body), AFI, SAFI, then the withdrawn prefixes. -/
def mpUnreachAttr (nlriOctets : List Nat) : BAttr :=
  let body := 0 :: 0 :: 0 :: nlriOctets
  if body.length ≤ 255 then
    ⟨15, 128 :: 15 :: body.length :: body⟩
  else
    ⟨15, 144 :: 15 :: body.length / 256 :: body.length % 256 :: body⟩

/-- A `table.Path` as the batcher consumes it: route family flag,
withdraw flag, the resolved attribute list `GetPathAttrs()`, the
serialized length of its IPv4 NLRI, and the serialized prefixes of its
MP attribute (used only when a non-IPv4 withdraw is rebuilt). -/
structure BPath where
  isIPv4UC : Bool
  IsWithdraw : Bool
  attrs : List BAttr
  nlriLen : Nat
  mpNlriOctets : List Nat
deriving DecidableEq, Repr

/-- The body of a `bgp.BGPUpdate` under construction: serialized lengths
of the withdrawn routes, the path attributes, and the serialized lengths
of the NLRI field entries. -/
structure UpdMsg where
  withdrawnLens : List Nat
  pathAttributes : List BAttr
  nlriLens : List Nat
deriving DecidableEq, Repr

/-- Total serialized length of the attribute field. -/
def attrsTotal (m : UpdMsg) : Nat := (m.pathAttributes.map BAttr.Len).sum

/-- Serialized size of the whole UPDATE message: 19-octet header, 2-octet
withdrawn-routes length, the withdrawn routes, 2-octet total-path-
attribute length, the attributes, then the NLRI field. -/
def msgSize (m : UpdMsg) : Nat :=
  19 + 2 + m.withdrawnLens.sum + 2 + attrsTotal m + m.nlriLens.sum

/-- `BGP_MAX_MESSAGE_LENGTH`, 4096 octets. -/
def BGP_MAX_MESSAGE_LENGTH : Nat := 4096

/-- The attribute-list surgery of `createUpdateMsgFromPath` for a
non-IPv4 withdraw: the first MP_REACH_NLRI or MP_UNREACH_NLRI attribute
of the cloned list is replaced by a fresh MP_UNREACH_NLRI carrying the
path's MP prefixes. -/
def swapMpUnreach (nlriOctets : List Nat) : List BAttr → List BAttr
  | [] => []
  | a :: rest =>
    if a.typ = 15 ∨ a.typ = 14 then mpUnreachAttr nlriOctets :: rest
    else a :: swapMpUnreach nlriOctets rest

/-- `createUpdateMsgFromPath` with `msg == nil`: the standalone UPDATE
built for one path. -/
def createUpdateMsgFromPathNil (p : BPath) : UpdMsg :=
  if p.isIPv4UC then
    if p.IsWithdraw then ⟨[p.nlriLen], [], []⟩
    else ⟨[], p.attrs, [p.nlriLen]⟩
  else
    if p.IsWithdraw then ⟨[], swapMpUnreach p.mpNlriOctets p.attrs, []⟩
    else ⟨[], p.attrs, []⟩

/-- `createUpdateMsgFromPath` with `msg != nil`, for an IPv4-unicast
announcement: the path's NLRI is appended to the open message. -/
def mergeIntoMsg (p : BPath) (m : UpdMsg) : UpdMsg :=
  { m with nlriLens := m.nlriLens ++ [p.nlriLen] }

/-- The bucket key: concatenation of every serialized attribute of the
path. The source hashes this with FNV-1a and resolves collisions by full
byte comparison, so paths share a bucket exactly when these octet
strings are equal. -/
def attrBytes (p : BPath) : List Nat := p.attrs.flatMap BAttr.octets

/-- Insert a path into the ordered bucket list of `CreateUpdateMsgFromPaths`:
join the bucket with byte-equal attributes, or open a new one at the end. -/
def bucketsInsert (p : BPath) : List (List Nat × List BPath) → List (List Nat × List BPath)
  | [] => [(attrBytes p, [p])]
  | b :: rest =>
    if b.1 = attrBytes p then (b.1, b.2 ++ [p]) :: rest
    else b :: bucketsInsert p rest

/-- Phase one of `CreateUpdateMsgFromPaths`, processing the path list in
order with the accumulated standalone messages and buckets. -/
def splitPathsGo : List BPath → List UpdMsg × List (List Nat × List BPath) →
    List UpdMsg × List (List Nat × List BPath)
  | [], acc => acc
  | p :: rest, (msgs, buckets) =>
    if p.isIPv4UC ∧ ¬p.IsWithdraw then splitPathsGo rest (msgs, bucketsInsert p buckets)
    else splitPathsGo rest (msgs ++ [createUpdateMsgFromPathNil p], buckets)

/-- Phase one of `CreateUpdateMsgFromPaths`: IPv4-unicast announcements
are bucketed by attribute bytes, everything else becomes a standalone
UPDATE at once. -/
def splitPaths (pathList : List BPath) : List UpdMsg × List (List Nat × List BPath) :=
  splitPathsGo pathList ([], [])

/-- The length check of the packing loop: the projected size of the open
message with one more NLRI, `19 + 2 + 2 + attrsLen + (len(NLRI)+1)*5`. -/
def projectedLen (m : UpdMsg) : Nat :=
  19 + 2 + 2 + attrsTotal m + (m.nlriLens.length + 1) * 5

/-- The packing loop of `CreateUpdateMsgFromPaths` over one bucket, with
the currently open message: when the projected length plus the 32-octet
margin exceeds `BGP_MAX_MESSAGE_LENGTH` a new UPDATE is started,
otherwise the path is merged into the open message. -/
def packGo : List BPath → UpdMsg → List UpdMsg
  | [], m => [m]
  | p :: rest, m =>
    if projectedLen m + 32 > BGP_MAX_MESSAGE_LENGTH then
      m :: packGo rest (createUpdateMsgFromPathNil p)
    else
      packGo rest (mergeIntoMsg p m)

/-- Pack one bucket: the first path opens a message, the rest run
through the packing loop. -/
def packBucket : List BPath → List UpdMsg
  | [] => []
  | p :: rest => packGo rest (createUpdateMsgFromPathNil p)

/-- `CreateUpdateMsgFromPaths`. -/
def CreateUpdateMsgFromPaths (pathList : List BPath) : List UpdMsg :=
  let (msgs, buckets) := splitPaths pathList
  msgs ++ (buckets.map fun b => packBucket b.2).flatten

/-- The negotiated hold time computed in `opensent`: the smaller of the
configured hold time and the hold time received in the OPEN message.
Times are rationals, standing in for Go float64. -/
def negotiatedHoldTime (myHoldTime holdTime : ℚ) : ℚ :=
  if holdTime > myHoldTime then myHoldTime else holdTime

/-- The keepalive interval computed in `opensent`: a third of the
negotiated hold time when that is below the configured hold time,
otherwise the configured keepalive interval. -/
def keepaliveIntervalOf (myHoldTime configuredKeepalive negotiated : ℚ) : ℚ :=
  if negotiated < myHoldTime then negotiated / 3 else configuredKeepalive

/-- Go conversion `time.Duration(f)` of a float64: truncation toward
zero to an integer (nanosecond) count. -/
def durationOf (q : ℚ) : ℤ := q.num / q.den

/-- `keepaliveTicker`: `none` when the negotiated hold time is zero (the
empty ticker never fires); otherwise the armed period in nanoseconds,
`time.Second * time.Duration(interval)`, replaced by the literal 1 when
it is zero. -/
def keepaliveTickerPeriodNs (negotiated keepaliveInterval : ℚ) : Option ℤ :=
  if negotiated = 0 then none
  else
    let sec : ℤ := 1000000000 * durationOf keepaliveInterval
    some (if sec = 0 then 1 else sec)

/-- One direction of the per-message counters (`config.Messages`). -/
structure MsgCounters where
  Total : Nat
  Open : Nat
  Update : Nat
  Notification : Nat
  Keepalive : Nat
  Refresh : Nat
  Discarded : Nat
deriving DecidableEq, Repr

/-- The accounting state touched by `bgpMessageStateUpdate`: the two
counter directions and `Timers.State.UpdateRecvTime`. -/
structure MessageStats where
  Received : MsgCounters
  Sent : MsgCounters
  UpdateRecvTime : Nat
deriving DecidableEq, Repr

/-- `BGP_MSG_OPEN`; the message type codes live in the external packet
codec and are the RFC 4271 / RFC 2918 values. -/
def BGP_MSG_OPEN : Nat := 1

def BGP_MSG_UPDATE : Nat := 2

def BGP_MSG_NOTIFICATION : Nat := 3

def BGP_MSG_KEEPALIVE : Nat := 4

def BGP_MSG_ROUTE_REFRESH : Nat := 5

/-- Apply a counter change to the direction selected by `isIn`. -/
def onDir (isIn : Bool) (f : MsgCounters → MsgCounters) (s : MessageStats) : MessageStats :=
  if isIn then { s with Received := f s.Received } else { s with Sent := f s.Sent }

/-- `bgpMessageStateUpdate`: bump `Total` and the per-type counter of
the chosen direction; an inbound UPDATE also stamps `UpdateRecvTime`
with the current time, and an unknown type lands in `Discarded`. -/
def bgpMessageStateUpdate (MessageType : Nat) (isIn : Bool) (now : Nat) (s : MessageStats) : MessageStats :=
  let s1 := onDir isIn (fun c => { c with Total := c.Total + 1 }) s
  if MessageType = BGP_MSG_OPEN then
    onDir isIn (fun c => { c with Open := c.Open + 1 }) s1
  else if MessageType = BGP_MSG_UPDATE then
    let s2 := onDir isIn (fun c => { c with Update := c.Update + 1 }) s1
    if isIn then { s2 with UpdateRecvTime := now } else s2
  else if MessageType = BGP_MSG_NOTIFICATION then
    onDir isIn (fun c => { c with Notification := c.Notification + 1 }) s1
  else if MessageType = BGP_MSG_KEEPALIVE then
    onDir isIn (fun c => { c with Keepalive := c.Keepalive + 1 }) s1
  else if MessageType = BGP_MSG_ROUTE_REFRESH then
    onDir isIn (fun c => { c with Refresh := c.Refresh + 1 }) s1
  else
    onDir isIn (fun c => { c with Discarded := c.Discarded + 1 }) s1

/-- `sendNotificatonFromErrorMsg`: serialize and write a NOTIFICATION
directly on the connection; the source runs `bgpMessageStateUpdate` only
under `if err != nil`, that is only when the write failed. -/
def sendNotificatonFromErrorMsg (writeFailed : Bool) (now : Nat) (s : MessageStats) : MessageStats :=
  if writeFailed then bgpMessageStateUpdate BGP_MSG_NOTIFICATION false now s else s

/-- The inbound accounting of `recvMessageWithError`: a header or body
parse failure counts with message type 0 (landing in `Discarded`), a
parsed message counts with its own header type. -/
def recvAccounting (parsedType : Option Nat) (now : Nat) (s : MessageStats) : MessageStats :=
  match parsedType with
  | none => bgpMessageStateUpdate 0 true now s
  | some t => bgpMessageStateUpdate t true now s

/-- Modelled from the spec: `MIN_CONNECT_RETRY` is declared outside src;
the spec fixes the connect-retry floor at 5 seconds. -/
def MIN_CONNECT_RETRY : Nat := 5

/-- The ticker period chosen at the top of `connectLoop`: the configured
connect-retry interval, floored at `MIN_CONNECT_RETRY`. -/
def connectRetryTick (configured : Nat) : Nat :=
  if configured < MIN_CONNECT_RETRY then MIN_CONNECT_RETRY else configured

/-- The dial timeout used by both dial sites of `connectLoop`, in
seconds: the constant `MIN_CONNECT_RETRY - 1`. -/
def dialTimeoutSeconds : Nat := MIN_CONNECT_RETRY - 1

/-- The sleep before the dial triggered by the activate signal:
`rand.Intn(MIN_CONNECT_RETRY) + MIN_CONNECT_RETRY` seconds; the random
draw is reduced modulo `MIN_CONNECT_RETRY`. -/
def activateDelaySeconds (r : Nat) : Nat :=
  r % MIN_CONNECT_RETRY + MIN_CONNECT_RETRY

/-- `table.PeerInfo` as far as the path claims read it: `Address` is
`none` for a locally originated source. -/
structure PeerInfo where
  AS : Nat
  LocalAS : Nat
  ID : Nat
  Address : Option Nat
deriving DecidableEq, Repr

/-- `originInfo`: the identity fields owned by the root of a path. -/
structure OriginInfo where
  nlri : Nat
  source : PeerInfo
  timestamp : Nat
  noImplicitWithdraw : Bool
deriving DecidableEq, Repr

/-- `table.Path`: `info` is set on roots only (`Clone` leaves it out);
a `cons` node carries a parent, giving the copy-on-write overlay. -/
inductive Path
  | base (info : Option OriginInfo) (IsWithdraw : Bool)
      (pathAttrs : List PA) (dels : List Nat)
  | cons (info : Option OriginInfo) (IsWithdraw : Bool)
      (pathAttrs : List PA) (dels : List Nat) (parent : Path)
deriving DecidableEq, Repr

def Path.info : Path → Option OriginInfo
  | .base i _ _ _ => i
  | .cons i _ _ _ _ => i

def Path.IsWithdraw : Path → Bool
  | .base _ w _ _ => w
  | .cons _ w _ _ _ => w

def Path.pathAttrs : Path → List PA
  | .base _ _ a _ => a
  | .cons _ _ a _ _ => a

def Path.dels : Path → List Nat
  | .base _ _ _ d => d
  | .cons _ _ _ d _ => d

def Path.parent : Path → Option Path
  | .base _ _ _ _ => none
  | .cons _ _ _ _ q => some q

/-- `root`: ascend the parent chain. -/
def Path.root : Path → Path
  | .base i w a d => .base i w a d
  | .cons _ _ _ _ q => q.root

/-- `NewPath`: a non-withdraw with a nil attribute list is refused with
an error log. `pattrs = none` models the Go nil slice, which is distinct
from an empty one. -/
def NewPath (source : PeerInfo) (nlri : Nat) (isWithdraw : Bool)
    (pattrs : Option (List PA)) (timestamp : Nat) (noImplicitWithdraw : Bool) :
    Option Path :=
  if ¬isWithdraw ∧ pattrs = none then none
  else
    some (.base (some ⟨nlri, source, timestamp, noImplicitWithdraw⟩) isWithdraw
      (pattrs.getD []) [])

/-- `Clone`: a child with empty attributes and deletes. -/
def Path.Clone (p : Path) (isWithdraw : Bool) : Path :=
  .cons none isWithdraw [] [] p

/-- `IsLocal`: the root source has no address. -/
def Path.IsLocal (p : Path) : Bool :=
  match p.root.info with
  | some i => i.source.Address.isNone
  | none => false

/-- `getPathAttr`: walk from the node to the root; a type found in a
node's `dels` wins over any attribute further out. -/
def Path.getPathAttr : Path → Nat → Option PA
  | .base _ _ attrs dels, typ =>
    if typ ∈ dels then none
    else
      match attrs.find? (fun a => a.GetType == typ) with
      | some a => some a
      | none => none
  | .cons _ _ attrs dels q, typ =>
    if typ ∈ dels then none
    else
      match attrs.find? (fun a => a.GetType == typ) with
      | some a => some a
      | none => q.getPathAttr typ

/-- The replace-or-append of `setPathAttr` on one attribute list. -/
def setAttrList (a : PA) : List PA → List PA
  | [] => [a]
  | b :: rest =>
    if a.GetType = b.GetType then a :: rest else b :: setAttrList a rest

/-- `setPathAttr`: replace the same-type entry on the node itself if
present, else append; `dels` is left untouched. -/
def Path.setPathAttr : Path → PA → Path
  | .base i w attrs dels, a => .base i w (setAttrList a attrs) dels
  | .cons i w attrs dels q, a => .cons i w (setAttrList a attrs) dels q

/-- `delPathAttr`: record the type in the node's own deletes. -/
def Path.delPathAttr : Path → Nat → Path
  | .base i w attrs dels, typ => .base i w attrs (dels ++ [typ])
  | .cons i w attrs dels q, typ => .cons i w attrs (dels ++ [typ]) q

/-- The collection of `GetPathAttrs` over one node's own attribute list,
threading the 256-bit `seen` set (modelled as the list of seen codes). -/
def collectOwn : List PA → List Nat → List PA × List Nat
  | [], seen => ([], seen)
  | a :: rest, seen =>
    if a.GetType ∈ seen then collectOwn rest seen
    else
      (a :: (collectOwn rest (a.GetType :: seen)).1,
        (collectOwn rest (a.GetType :: seen)).2)

/-- The walk of `GetPathAttrs` from a node to the root, flagging the
node's `dels` before reading its own attributes. -/
def getPathAttrsGo : Path → List Nat → List PA
  | .base _ _ attrs dels, seen => (collectOwn attrs (seen ++ dels)).1
  | .cons _ _ attrs dels q, seen =>
    let (l, s) := collectOwn attrs (seen ++ dels)
    l ++ getPathAttrsGo q s

/-- `GetPathAttrs`. -/
def Path.GetPathAttrs (p : Path) : List PA := getPathAttrsGo p []

/-- `GetNexthop`: the NEXT_HOP value, falling back to the MP_REACH_NLRI
next hop; `none` models the empty `net.IP{}`. -/
def Path.GetNexthop (p : Path) : Option Nat :=
  match p.getPathAttr 3 with
  | some (.nextHop v) => some v
  | _ =>
    match p.getPathAttr 14 with
    | some (.mpReachNlri nh _) => some nh
    | _ => none

/-- `SetNexthop`: rewrite the NEXT_HOP attribute when one is present,
and likewise the MP_REACH_NLRI next hop; a path carrying neither is left
unchanged. -/
def Path.SetNexthop (p : Path) (nexthop : Nat) : Path :=
  let p1 :=
    match p.getPathAttr 3 with
    | some _ => p.setPathAttr (.nextHop nexthop)
    | none => p
  match p1.getPathAttr 14 with
  | some (.mpReachNlri _ oldNlri) => p1.setPathAttr (.mpReachNlri nexthop oldNlri)
  | _ => p1

/-- `GetAsPath`: the AS_PATH attribute value. -/
def Path.GetAsPath (p : Path) : Option (List AsSeg) :=
  match p.getPathAttr 2 with
  | some (.asPath v) => some v
  | _ => none

/-- `cloneAsPath`: a deep copy of the AS_PATH as `As4PathParam`
segments. The source type-asserts `*bgp.As4PathParam`; table paths carry
4-octet segments, on which `toSeg4` is the identity. -/
def cloneAsPath (v : List AsSeg) : List Seg4 := v.map toSeg4

/-- The segment computation of `PrependAsn`: prepend `asn` into a
leading AS_SEQUENCE segment up to the 255-AS segment limit, spilling the
remainder into a fresh leading AS_SEQUENCE segment. -/
def prependAsnSegs (asPath : List Seg4) (asn : Nat) (repeatN : Nat) : List Seg4 :=
  let asns := List.replicate repeatN asn
  let (asns1, asPath1) :=
    match asPath with
    | fst :: rest =>
      if fst.typ = SegT.seq then
        let rep := if 255 < fst.AS.length + repeatN then 255 - fst.AS.length else repeatN
        (asns.drop rep, (⟨SegT.seq, asns.take rep ++ fst.AS⟩ : Seg4) :: rest)
      else (asns, asPath)
    | [] => (asns, asPath)
  if asns1.length > 0 then (⟨SegT.seq, asns1⟩ : Seg4) :: asPath1 else asPath1

/-- `PrependAsn`: clone the AS_PATH (an absent attribute behaves as an
empty one), prepend the AS numbers, and set the rebuilt attribute. -/
def Path.PrependAsn (p : Path) (asn : Nat) (repeatN : Nat) : Path :=
  let asPath :=
    match p.GetAsPath with
    | none => []
    | some v => cloneAsPath v
  p.setPathAttr (.asPath ((prependAsnSegs asPath asn repeatN).map AsSeg.as4))

/-- `config.Global` as read by `UpdatePathAttrs`. -/
structure GlobalConf where
  As : Nat
deriving DecidableEq, Repr

inductive PeerType
  | external
  | internal
  | invalid
deriving DecidableEq, Repr

/-- `config.Neighbor` as read by `UpdatePathAttrs`.
`isConfederationMember` stands for `config.IsConfederationMember(global,
peer)`, a config-package helper that is not under src. -/
structure NeighborConf where
  RouteServerClient : Bool
  LocalAddress : Nat
  peerType : PeerType
  isConfederationMember : Bool
  RouteReflectorClient : Bool
  RouteReflectorClusterId : Nat
deriving DecidableEq, Repr

/-- `UpdatePathAttrs`: the policy-independent egress rewrites. The
IBGP unspecified-next-hop test compares against 0.0.0.0 / ::, encoded
here as the address 0 (the empty `net.IP{}` of a path with no next-hop
attribute compares unequal to both, hence `some 0`). -/
def Path.UpdatePathAttrs (p : Path) (global : GlobalConf) (peer : NeighborConf) : Path :=
  if peer.RouteServerClient then p
  else
    match peer.peerType with
    | .external =>
      let p1 := p.SetNexthop peer.LocalAddress
      let p2 := p1.PrependAsn global.As 1
      let p3 :=
        if (p2.getPathAttr 4).isSome ∧ p2.IsLocal = false then p2.delPathAttr 4 else p2
      if (p3.getPathAttr 5).isSome ∧ peer.isConfederationMember = false then
        p3.delPathAttr 5
      else p3
    | .internal =>
      let nexthop := p.GetNexthop
      let p1 := if p.IsLocal ∧ nexthop = some 0 then p.SetNexthop peer.LocalAddress else p
      let p2 := if (p1.getPathAttr 2).isNone then p1.PrependAsn 0 0 else p1
      let p3 :=
        if (p2.getPathAttr 5).isNone ∨ p2.IsLocal = false then
          p2.setPathAttr (.localPref 100)
        else p2
      if peer.RouteReflectorClient then
        let p4 :=
          if (p3.getPathAttr 9).isNone then
            p3.setPathAttr (.originatorId ((p3.root.info.map fun i => i.source.ID).getD 0))
          else p3
        match p4.getPathAttr 10 with
        | some (.clusterList cl) =>
          p4.setPathAttr (.clusterList (peer.RouteReflectorClusterId :: cl))
        | _ => p4.setPathAttr (.clusterList [peer.RouteReflectorClusterId])
      else p3
    | .invalid => p

theorem collectOwn_not_mem (attrs : List PA) (seen : List Nat) (t : Nat) (h : t ∈ seen) :
    t ∉ (collectOwn attrs seen).1.map PA.GetType := by
  induction attrs generalizing seen with
  | nil => simp [collectOwn]
  | cons a rest ih =>
    by_cases hm : a.GetType ∈ seen
    · simpa [collectOwn, hm] using ih seen h
    · have hne : ¬t = a.GetType := fun he => hm (he ▸ h)
      simp only [collectOwn, if_neg hm, List.map_cons, List.mem_cons, not_or]
      exact ⟨hne, ih (a.GetType :: seen) (List.mem_cons_of_mem _ h)⟩

theorem collectOwn_seen_sub (attrs : List PA) (seen : List Nat) (t : Nat) (h : t ∈ seen) :
    t ∈ (collectOwn attrs seen).2 := by
  induction attrs generalizing seen with
  | nil => simpa [collectOwn] using h
  | cons a rest ih =>
    by_cases hm : a.GetType ∈ seen
    · simpa [collectOwn, hm] using ih seen h
    · simpa [collectOwn, hm] using ih (a.GetType :: seen) (List.mem_cons_of_mem _ h)

theorem getPathAttrsGo_not_mem (p : Path) (seen : List Nat) (t : Nat) (h : t ∈ seen) :
    t ∉ (getPathAttrsGo p seen).map PA.GetType := by
  induction p generalizing seen with
  | base i w attrs dels =>
    simpa [getPathAttrsGo] using
      collectOwn_not_mem attrs (seen ++ dels) t (List.mem_append_left _ h)
  | cons i w attrs dels q ih =>
    simp only [getPathAttrsGo, List.map_append, List.mem_append]
    push_neg
    exact ⟨collectOwn_not_mem attrs (seen ++ dels) t (List.mem_append_left _ h),
      ih _ (collectOwn_seen_sub attrs (seen ++ dels) t (List.mem_append_left _ h))⟩

theorem getPathAttrsGo_not_mem_dels (p : Path) (seen : List Nat) (t : Nat)
    (h : t ∈ p.dels) : t ∉ (getPathAttrsGo p seen).map PA.GetType := by
  cases p with
  | base i w attrs dels =>
    simpa [getPathAttrsGo] using
      collectOwn_not_mem attrs (seen ++ dels) t (List.mem_append_right _ h)
  | cons i w attrs dels q =>
    simp only [getPathAttrsGo, List.map_append, List.mem_append]
    push_neg
    exact ⟨collectOwn_not_mem attrs (seen ++ dels) t (List.mem_append_right _ h),
      getPathAttrsGo_not_mem q _ t
        (collectOwn_seen_sub attrs (seen ++ dels) t (List.mem_append_right _ h))⟩

/-- C10: on a single path node a delete of attribute type t permanently
shadows later sets of the same type: after `delPathAttr t` followed by
`setPathAttr a` with `a` of type t, `getPathAttr t` still returns
nothing and `GetPathAttrs` omits type t, because the node's deletes are
consulted before its own attribute list and `setPathAttr` never clears
them. -/
theorem del_then_set_shadows (p : Path) (t : Nat) (a : PA) (h : a.GetType = t) :
    ((p.delPathAttr t).setPathAttr a).getPathAttr t = none ∧
    t ∉ (((p.delPathAttr t).setPathAttr a).GetPathAttrs).map PA.GetType := by
  have hdels : ((p.delPathAttr t).setPathAttr a).dels = p.dels ++ [t] := by
    cases p <;> rfl
  constructor
  · cases p <;> simp [Path.delPathAttr, Path.setPathAttr, Path.getPathAttr]
  · exact getPathAttrsGo_not_mem_dels _ [] t
      (hdels ▸ List.mem_append_right _ (List.mem_singleton.mpr rfl))

/-- Witness for C10: a node carrying a MED, a delete of MED, then a
fresh MED set; the attribute stays invisible. -/
theorem del_then_set_shadows_witness :
    ((Path.base none false [PA.multiExitDisc 1] []).delPathAttr 4 |>.setPathAttr
        (PA.multiExitDisc 9)).getPathAttr 4 = none ∧
    4 ∉ (((Path.base none false [PA.multiExitDisc 1] []).delPathAttr 4 |>.setPathAttr
        (PA.multiExitDisc 9)).GetPathAttrs).map PA.GetType :=
  del_then_set_shadows (Path.base none false [PA.multiExitDisc 1] []) 4
    (PA.multiExitDisc 9) rfl

/-- C9: `NewPath` returns nothing exactly when a non-withdraw path is
constructed with a nil attribute list; otherwise the returned path is a
root (no parent) owning the identity fields: source, NLRI, timestamp and
the no-implicit-withdraw flag. -/
theorem NewPath_refuses_exactly_nil_attrs (source : PeerInfo) (nlri : Nat)
    (isWithdraw : Bool) (pattrs : Option (List PA)) (timestamp : Nat) (ni : Bool) :
    (NewPath source nlri isWithdraw pattrs timestamp ni = none ↔
      isWithdraw = false ∧ pattrs = none) ∧
    ∀ p, NewPath source nlri isWithdraw pattrs timestamp ni = some p →
      p.parent = none ∧ p.root = p ∧
      p.info = some ⟨nlri, source, timestamp, ni⟩ ∧
      p.IsWithdraw = isWithdraw ∧ p.pathAttrs = pattrs.getD [] := by
  cases isWithdraw <;> cases pattrs <;>
    simp [NewPath, Path.parent, Path.root, Path.info, Path.IsWithdraw, Path.pathAttrs]

/-- Witness for C9 at a concrete source, NLRI and attribute list. -/
theorem NewPath_refuses_exactly_nil_attrs_witness :
    NewPath ⟨65002, 65001, 5, some 9⟩ 1 false none 3 true = none ∧
    (Path.base (some ⟨1, ⟨65002, 65001, 5, some 9⟩, 3, true⟩) false
      [PA.other 1 0] []).parent = none := by
  refine ⟨(NewPath_refuses_exactly_nil_attrs _ 1 false none 3 true).1.mpr ⟨rfl, rfl⟩, ?_⟩
  exact ((NewPath_refuses_exactly_nil_attrs ⟨65002, 65001, 5, some 9⟩ 1 false
    (some [PA.other 1 0]) 3 true).2 _ rfl).1

/-- C7 (code bug): `bgpMessageStateUpdate` does account every message
type in the right direction — an inbound UPDATE bumps the counters and
stamps `UpdateRecvTime`, an unparseable inbound header lands in the
inbound discarded bucket — but a NOTIFICATION written directly by
`sendNotificatonFromErrorMsg` is counted only when the write FAILS; a
successfully written one leaves the counters untouched. -/
theorem sendNotificaton_counts_only_failed_writes :
    (∀ s now, sendNotificatonFromErrorMsg false now s = s) ∧
    (∀ s now, sendNotificatonFromErrorMsg true now s =
      bgpMessageStateUpdate BGP_MSG_NOTIFICATION false now s) ∧
    (∀ s now, (bgpMessageStateUpdate BGP_MSG_UPDATE true now s).Received.Update =
        s.Received.Update + 1 ∧
      (bgpMessageStateUpdate BGP_MSG_UPDATE true now s).Received.Total =
        s.Received.Total + 1 ∧
      (bgpMessageStateUpdate BGP_MSG_UPDATE true now s).UpdateRecvTime = now) ∧
    (∀ s now, (recvAccounting none now s).Received.Discarded = s.Received.Discarded + 1 ∧
      (recvAccounting none now s).Received.Total = s.Received.Total + 1) ∧
    (∀ s now, (bgpMessageStateUpdate BGP_MSG_NOTIFICATION false now s).Sent.Notification =
      s.Sent.Notification + 1) := by
  refine ⟨fun s now => rfl, fun s now => rfl, fun s now => ?_, fun s now => ?_, fun s now => ?_⟩ <;>
    simp [bgpMessageStateUpdate, recvAccounting, onDir,
      BGP_MSG_OPEN, BGP_MSG_UPDATE, BGP_MSG_NOTIFICATION, BGP_MSG_KEEPALIVE,
      BGP_MSG_ROUTE_REFRESH]

/-- C8 counterexample: with a configured connect-retry of 120 seconds
the claim demands a dial timeout of `connect_retry - 1 = 119` seconds
and an activate delay of at least `connect_retry = 120` seconds; the
code dials with a 4-second timeout and can delay 5 seconds. -/
theorem connectLoop_claim_counterexample :
    dialTimeoutSeconds ≠ connectRetryTick 120 - 1 ∧
    activateDelaySeconds 0 < connectRetryTick 120 := by decide

/-- C8 as amended: every dial uses the fixed timeout
`MIN_CONNECT_RETRY - 1 = 4` seconds, the retry ticker period is
`max(configured, 5)` seconds, and the activate-signal delay lies in
`[MIN_CONNECT_RETRY, 2 * MIN_CONNECT_RETRY) = [5, 10)` seconds. -/
theorem connectLoop_timing :
    (∀ configured : Nat,
      dialTimeoutSeconds = 4 ∧ connectRetryTick configured = max configured 5) ∧
    (∀ r : Nat, MIN_CONNECT_RETRY ≤ activateDelaySeconds r ∧
      activateDelaySeconds r < 2 * MIN_CONNECT_RETRY) := by
  constructor
  · intro c
    refine ⟨rfl, ?_⟩
    rw [connectRetryTick, Nat.max_def]
    simp only [MIN_CONNECT_RETRY]
    split <;> split <;> omega
  · intro r
    simp only [activateDelaySeconds, MIN_CONNECT_RETRY]
    omega

/-- C4 (code bug): the FSM does set the negotiated hold time to the
minimum of configured and received, arms no keepalive ticker when it is
zero, and picks `negotiated/3` as keepalive interval when the negotiated
hold undercuts the configured one — but `keepaliveTicker` clamps a zero
period to the literal 1, which is one NANOSECOND, not one second: with
hold time 90 negotiated on both sides and a configured keepalive
interval of 0 the armed ticker period is 1 ns, a sub-second period. -/
theorem keepaliveTicker_clamps_to_one_nanosecond :
    (∀ myHold recv : ℚ, negotiatedHoldTime myHold recv = min myHold recv) ∧
    (∀ myHold ka recv : ℚ, recv < myHold →
      keepaliveIntervalOf myHold ka (negotiatedHoldTime myHold recv) = recv / 3) ∧
    (∀ k : ℚ, keepaliveTickerPeriodNs 0 k = none) ∧
    negotiatedHoldTime 90 90 = 90 ∧
    keepaliveIntervalOf 90 0 (negotiatedHoldTime 90 90) = 0 ∧
    keepaliveTickerPeriodNs 90 0 = some 1 ∧ (1 : ℤ) < 1000000000 := by
  refine ⟨?_, ?_, ?_, by norm_num [negotiatedHoldTime],
    by norm_num [keepaliveIntervalOf, negotiatedHoldTime], ?_, by norm_num⟩
  · intro c r
    unfold negotiatedHoldTime
    rcases le_or_lt r c with h | h
    · rw [if_neg (not_lt.mpr h), min_eq_right h]
    · rw [if_pos h, min_eq_left h.le]
  · intro c k r hlt
    have h1 : negotiatedHoldTime c r = r := by
      unfold negotiatedHoldTime
      rw [if_neg (not_lt.mpr hlt.le)]
    rw [h1, keepaliveIntervalOf, if_pos hlt]
  · intro k
    simp [keepaliveTickerPeriodNs]
  · norm_num [keepaliveTickerPeriodNs, durationOf]

/-- Witness for C4's universally quantified parts with a hypothesis: a
received hold of 30 against a configured 90 negotiates 30 and yields a
10-second keepalive interval. -/
theorem keepaliveTicker_clamps_witness :
    (30 : ℚ) < 90 ∧ keepaliveIntervalOf 90 17 (negotiatedHoldTime 90 30) = 10 := by
  have h := keepaliveTicker_clamps_to_one_nanosecond.2.1 90 17 30 (by norm_num)
  refine ⟨by norm_num, ?_⟩
  rw [h]
  norm_num

theorem widenAttr_eq_self (a : PA) (h : a.isAsPath = false) : widenAttr a = a := by
  cases a <;> simp_all [widenAttr, PA.isAsPath]

theorem findAsPath_none (attrs : List PA) (h : ∀ a ∈ attrs, a.isAsPath = false) :
    findAsPath attrs = none := by
  induction attrs with
  | nil => rfl
  | cons a rest ih =>
    have ha := h a (by simp)
    have hr : ∀ b ∈ rest, b.isAsPath = false := fun b hb => h b (by simp [hb])
    cases a <;> simp_all [findAsPath, PA.isAsPath]

theorem findAsPath_append (pre post : List PA) (v : List AsSeg)
    (h : ∀ a ∈ pre, a.isAsPath = false) :
    findAsPath (pre ++ PA.asPath v :: post) = some (pre.length, v) := by
  induction pre with
  | nil => simp [findAsPath]
  | cons a rest ih =>
    have ha := h a (by simp)
    have hr : ∀ b ∈ rest, b.isAsPath = false := fun b hb => h b (by simp [hb])
    cases a <;> simp_all [findAsPath, PA.isAsPath]

theorem lastAs4PathGo_no (l : List PA) (h : ∀ a ∈ l, a.isAs4Path = false) :
    ∀ (i : Nat) (acc : Option (Nat × List Seg4)), lastAs4PathGo l i acc = acc := by
  induction l with
  | nil => intro i acc; rfl
  | cons a rest ih =>
    intro i acc
    have ha := h a (by simp)
    have hr : ∀ b ∈ rest, b.isAs4Path = false := fun b hb => h b (by simp [hb])
    cases a <;> simp_all [lastAs4PathGo, PA.isAs4Path]

theorem set_append_length {α : Type} (pre post : List α) (x y : α) :
    (pre ++ x :: post).set pre.length y = pre ++ y :: post := by
  induction pre with
  | nil => rfl
  | cons a rest ih => simp [ih]

theorem map_eq_self {α : Type} (l : List α) (f : α → α) (h : ∀ a ∈ l, f a = a) :
    l.map f = l := by
  induction l with
  | nil => rfl
  | cons a rest ih => simp [h a (by simp), ih fun b hb => h b (by simp [hb])]

theorem allAs4_as4 (segs : List Seg4) : allAs4 (segs.map AsSeg.as4) = some segs := by
  induction segs with
  | nil => rfl
  | cons s rest ih => simp [allAs4, AsSeg.asAs4, ih]

theorem allAs4_widen (v : List AsSeg) : allAs4 (v.map widenSeg) = some (v.map toSeg4) := by
  induction v with
  | nil => rfl
  | cons s rest ih =>
    cases s <;> simp [widenSeg, toSeg4, allAs4, AsSeg.asAs4, ih]

/-- C6: `UpdatePathAttrs2ByteAs` leaves an UPDATE without an AS_PATH
attribute unchanged; otherwise it replaces, in each AS_PATH segment,
every AS exceeding 65535 by AS_TRANS (23456), collects the original
4-octet segments — excluding AS_CONFED_SEQUENCE and AS_CONFED_SET — into
an AS4_PATH attribute, and appends that attribute exactly when at least
one substitution happened. -/
theorem UpdatePathAttrs2ByteAs_claim :
    (∀ attrs : List PA, (∀ a ∈ attrs, a.isAsPath = false) →
      UpdatePathAttrs2ByteAs attrs = some attrs) ∧
    (∀ pre post : List PA, ∀ origSegs : List Seg4,
      (∀ a ∈ pre, a.isAsPath = false) →
      UpdatePathAttrs2ByteAs (pre ++ PA.asPath (origSegs.map AsSeg.as4) :: post) =
        some ((pre ++
          PA.asPath (origSegs.map fun s =>
            AsSeg.as2 s.typ (s.AS.map fun a => if 65535 < a then AS_TRANS else a)) :: post) ++
          (if origSegs.any fun s => s.AS.any fun a => 65535 < a then
            [PA.as4Path (origSegs.filter fun s =>
              ¬(s.typ = SegT.confedSeq ∨ s.typ = SegT.confedSet))]
          else []))) := by
  constructor
  · intro attrs h
    simp [UpdatePathAttrs2ByteAs, findAsPath_none attrs h]
  · intro pre post origSegs hpre
    have hfind := findAsPath_append pre post (origSegs.map AsSeg.as4) hpre
    have hfil : (origSegs.filter fun s => !segIsConfed s) =
        origSegs.filter fun s =>
          decide ¬(s.typ = SegT.confedSeq ∨ s.typ = SegT.confedSet) := by
      apply List.filter_congr
      intro s _
      simp [segIsConfed]
    simp only [UpdatePathAttrs2ByteAs, hfind, allAs4_as4]
    rw [set_append_length, hfil]
    rfl

/-- Witness for C6: a two-segment AS_PATH with 4-byte ASes, one segment
a confederation sequence. -/
theorem UpdatePathAttrs2ByteAs_claim_witness :
    UpdatePathAttrs2ByteAs [PA.nextHop 9,
        PA.asPath [AsSeg.as4 ⟨SegT.seq, [70000, 300]⟩,
          AsSeg.as4 ⟨SegT.confedSeq, [80000]⟩]] =
      some [PA.nextHop 9,
        PA.asPath [AsSeg.as2 SegT.seq [23456, 300], AsSeg.as2 SegT.confedSeq [23456]],
        PA.as4Path [⟨SegT.seq, [70000, 300]⟩]] := by
  have h := UpdatePathAttrs2ByteAs_claim.2 [PA.nextHop 9] []
    [⟨SegT.seq, [70000, 300]⟩, ⟨SegT.confedSeq, [80000]⟩] (by decide)
  exact h.trans (by decide)

/-- C2 counterexample: an UPDATE whose AS_PATH holds only 2-octet ASes
(the single AS 100) and whose AS4_PATH (SEQ [200]) has no CONFED
segment; reconciling merges the AS4_PATH into the AS_PATH, so the
subsequent downgrade cannot restore the original message. -/
theorem downgrade_after_reconcile_counterexample :
    (UpdatePathAttrs4ByteAs [PA.asPath [AsSeg.as2 SegT.seq [100]],
        PA.as4Path [⟨SegT.seq, [200]⟩]]).bind UpdatePathAttrs2ByteAs =
      some [PA.asPath [AsSeg.as2 SegT.seq [200]]] ∧
    some [PA.asPath [AsSeg.as2 SegT.seq [200]]] ≠
      some [PA.asPath [AsSeg.as2 SegT.seq [100]], PA.as4Path [⟨SegT.seq, [200]⟩]] := by
  decide

/-- C2 as amended: `UpdatePathAttrs2ByteAs` after `UpdatePathAttrs4ByteAs`
is the identity on an UPDATE whose single AS_PATH attribute carries
legacy 2-octet segments (whose ASes therefore fit in 2 bytes) and which
carries no AS4_PATH attribute. -/
theorem downgrade_after_reconcile_id (pre post : List PA) (val : List AsSeg)
    (hpre : ∀ a ∈ pre, a.isAsPath = false ∧ a.isAs4Path = false)
    (hpost : ∀ a ∈ post, a.isAsPath = false ∧ a.isAs4Path = false)
    (hval : ∀ s ∈ val, ∃ t l, s = AsSeg.as2 t l ∧ ∀ a ∈ l, a ≤ 65535) :
    (UpdatePathAttrs4ByteAs (pre ++ PA.asPath val :: post)).bind UpdatePathAttrs2ByteAs =
      some (pre ++ PA.asPath val :: post) := by
  have hattrs1 : (pre ++ PA.asPath val :: post).map widenAttr =
      pre ++ PA.asPath (val.map widenSeg) :: post := by
    rw [List.map_append, List.map_cons]
    rw [map_eq_self pre widenAttr fun a ha => widenAttr_eq_self a (hpre a ha).1]
    rw [map_eq_self post widenAttr fun a ha => widenAttr_eq_self a (hpost a ha).1]
    rfl
  have hno4 : ∀ a ∈ pre ++ PA.asPath (val.map widenSeg) :: post, a.isAs4Path = false := by
    intro a ha
    rcases List.mem_append.mp ha with h | h
    · exact (hpre a h).2
    · rcases List.mem_cons.mp h with h | h
      · subst h; rfl
      · exact (hpost a h).2
  have h4 : lastAs4Path (pre ++ PA.asPath (val.map widenSeg) :: post) = none :=
    lastAs4PathGo_no _ hno4 0 none
  have hrec : UpdatePathAttrs4ByteAs (pre ++ PA.asPath val :: post) =
      some (pre ++ PA.asPath (val.map widenSeg) :: post) := by
    rw [UpdatePathAttrs4ByteAs]
    rw [hattrs1, h4]
    rcases h1 : lastAsPath (pre ++ PA.asPath (val.map widenSeg) :: post) with _ | ⟨i, v⟩ <;>
      simp
  rw [hrec, Option.some_bind]
  have hfind := findAsPath_append pre post (val.map widenSeg)
    (fun a ha => (hpre a ha).1)
  simp only [UpdatePathAttrs2ByteAs, hfind, allAs4_widen]
  have hback : (val.map toSeg4).map seg2Of = val := by
    rw [List.map_map]
    apply map_eq_self
    intro s hs
    rcases hval s hs with ⟨t, l, rfl, hsmall⟩
    simp only [Function.comp, toSeg4, seg2Of]
    congr 1
    apply map_eq_self
    intro a ha
    rw [if_neg (Nat.not_lt.mpr (hsmall a ha))]
  have hany : (val.map toSeg4).any segNeedsAs4 = false := by
    rw [List.any_eq_false]
    intro s hs
    rcases List.mem_map.mp hs with ⟨s0, hs0, rfl⟩
    rcases hval s0 hs0 with ⟨t, l, rfl, hsmall⟩
    simp only [toSeg4, segNeedsAs4, List.any_eq_true, not_exists, decide_eq_true_eq]
    intro a
    rintro ⟨ha, hgt⟩
    exact absurd hgt (Nat.not_lt.mpr (hsmall a ha))
  rw [hback, hany]
  simp [set_append_length]

/-- Witness for C2 as amended at a concrete three-attribute UPDATE. -/
theorem downgrade_after_reconcile_id_witness :
    (UpdatePathAttrs4ByteAs [PA.other 1 0, PA.asPath [AsSeg.as2 SegT.seq [65001, 3]],
        PA.nextHop 9]).bind UpdatePathAttrs2ByteAs =
      some [PA.other 1 0, PA.asPath [AsSeg.as2 SegT.seq [65001, 3]], PA.nextHop 9] := by
  have h := downgrade_after_reconcile_id [PA.other 1 0] [PA.nextHop 9]
    [AsSeg.as2 SegT.seq [65001, 3]] (by decide) (by decide) ?_
  · exact h
  · intro s hs
    rw [List.mem_singleton] at hs
    subst hs
    exact ⟨SegT.seq, [65001, 3], rfl, by decide⟩

/-- The left-most AS of a path's AS_PATH: first AS of the first
segment. -/
def leftmostAs (p : Path) : Option Nat :=
  match p.GetAsPath with
  | some (s :: _) =>
    match (toSeg4 s).AS with
    | a :: _ => some a
    | [] => none
  | _ => none

/-- How many times `asn` occurs across the segments of the path's
AS_PATH. -/
def countAs (p : Path) (asn : Nat) : Nat :=
  ((p.GetAsPath.getD []).map fun s => (toSeg4 s).AS.count asn).sum

theorem getPathAttr_dels (p : Path) (t : Nat) (h : t ∈ p.dels) :
    p.getPathAttr t = none := by
  cases p with
  | base i w attrs dels => simp [Path.dels] at h; simp [Path.getPathAttr, h]
  | cons i w attrs dels q => simp [Path.dels] at h; simp [Path.getPathAttr, h]

theorem getPathAttr_not_dels (p : Path) (t : Nat) (x : PA)
    (h : p.getPathAttr t = some x) : t ∉ p.dels := by
  intro hin
  rw [getPathAttr_dels p t hin] at h
  exact Option.noConfusion h

theorem find?_setAttrList (a : PA) (attrs : List PA) :
    (setAttrList a attrs).find? (fun b => b.GetType == a.GetType) = some a := by
  induction attrs with
  | nil => simp [setAttrList, List.find?]
  | cons b rest ih =>
    by_cases hb : a.GetType = b.GetType
    · simp [setAttrList, if_pos hb, List.find?]
    · have hbeq : (b.GetType == a.GetType) = false := by
        simp [BEq.beq]
        omega
      simp [setAttrList, if_neg hb, List.find?, hbeq, ih]

theorem find?_setAttrList_ne (a : PA) (t : Nat) (attrs : List PA) (h : ¬t = a.GetType) :
    (setAttrList a attrs).find? (fun b => b.GetType == t) =
      attrs.find? (fun b => b.GetType == t) := by
  induction attrs with
  | nil =>
    have : (a.GetType == t) = false := by
      simp [BEq.beq]
      omega
    simp [setAttrList, List.find?, this]
  | cons b rest ih =>
    by_cases hb : a.GetType = b.GetType
    · have ha : (a.GetType == t) = false := by
        simp [BEq.beq]
        omega
      have hbf : (b.GetType == t) = false := by
        simp [BEq.beq]
        omega
      simp [setAttrList, if_pos hb, List.find?, ha, hbf]
    · simp only [setAttrList, if_neg hb, List.find?]
      cases hbt : b.GetType == t
      · simpa [hbt] using ih
      · simp [hbt]

theorem getPathAttr_set_self (p : Path) (a : PA) (h : a.GetType ∉ p.dels) :
    (p.setPathAttr a).getPathAttr a.GetType = some a := by
  cases p with
  | base i w attrs dels =>
    simp [Path.dels] at h
    simp [Path.setPathAttr, Path.getPathAttr, h, find?_setAttrList]
  | cons i w attrs dels q =>
    simp [Path.dels] at h
    simp [Path.setPathAttr, Path.getPathAttr, h, find?_setAttrList]

theorem getPathAttr_set_ne (p : Path) (a : PA) (t : Nat) (h : ¬t = a.GetType) :
    (p.setPathAttr a).getPathAttr t = p.getPathAttr t := by
  cases p with
  | base i w attrs dels =>
    simp only [Path.setPathAttr, Path.getPathAttr]
    rw [find?_setAttrList_ne a t _ h]
  | cons i w attrs dels q =>
    simp only [Path.setPathAttr, Path.getPathAttr]
    rw [find?_setAttrList_ne a t _ h]

theorem getPathAttr_del_self (p : Path) (t : Nat) :
    (p.delPathAttr t).getPathAttr t = none := by
  cases p <;> simp [Path.delPathAttr, Path.getPathAttr]

theorem getPathAttr_del_ne (p : Path) (t u : Nat) (h : ¬u = t) :
    (p.delPathAttr t).getPathAttr u = p.getPathAttr u := by
  cases p <;> simp [Path.delPathAttr, Path.getPathAttr, h]

theorem dels_set (p : Path) (a : PA) : (p.setPathAttr a).dels = p.dels := by
  cases p <;> rfl

theorem dels_del (p : Path) (t : Nat) : (p.delPathAttr t).dels = p.dels ++ [t] := by
  cases p <;> rfl

theorem IsLocal_set (p : Path) (a : PA) : (p.setPathAttr a).IsLocal = p.IsLocal := by
  cases p <;> rfl

theorem IsLocal_del (p : Path) (t : Nat) : (p.delPathAttr t).IsLocal = p.IsLocal := by
  cases p <;> rfl

theorem SetNexthop_get_ne (p : Path) (la t : Nat) (h3 : ¬t = 3) (h14 : ¬t = 14) :
    (p.SetNexthop la).getPathAttr t = p.getPathAttr t := by
  unfold Path.SetNexthop
  rcases hx : p.getPathAttr 3 with _ | x <;> simp only [hx]
  · rcases hy : p.getPathAttr 14 with _ | y
    · simp [hy]
    · cases y
      case mpReachNlri nh r =>
        simp only [hy]
        exact getPathAttr_set_ne _ (PA.mpReachNlri la r) t (by simpa [PA.GetType] using h14)
      all_goals simp [hy]
  · have h1 : (p.setPathAttr (PA.nextHop la)).getPathAttr t = p.getPathAttr t :=
      getPathAttr_set_ne _ (PA.nextHop la) t (by simpa [PA.GetType] using h3)
    rcases hy : (p.setPathAttr (PA.nextHop la)).getPathAttr 14 with _ | y
    · simp [hy, h1]
    · cases y
      case mpReachNlri nh r =>
        simp only [hy]
        rw [getPathAttr_set_ne _ (PA.mpReachNlri la r) t (by simpa [PA.GetType] using h14)]
        exact h1
      all_goals simp [hy, h1]

theorem SetNexthop_dels (p : Path) (la : Nat) : (p.SetNexthop la).dels = p.dels := by
  unfold Path.SetNexthop
  rcases hx : p.getPathAttr 3 with _ | x <;> simp only [hx]
  · rcases hy : p.getPathAttr 14 with _ | y
    · simp [hy]
    · cases y
      case mpReachNlri nh r => simp only [hy]; exact dels_set _ (PA.mpReachNlri la r)
      all_goals simp [hy]
  · rcases hy : (p.setPathAttr (PA.nextHop la)).getPathAttr 14 with _ | y
    · simp [hy, dels_set]
    · cases y
      case mpReachNlri nh r =>
        simp only [hy]
        rw [dels_set _ (PA.mpReachNlri la r)]
        exact dels_set p (PA.nextHop la)
      all_goals simp [hy, dels_set]

theorem SetNexthop_IsLocal (p : Path) (la : Nat) :
    (p.SetNexthop la).IsLocal = p.IsLocal := by
  unfold Path.SetNexthop
  rcases hx : p.getPathAttr 3 with _ | x <;> simp only [hx]
  · rcases hy : p.getPathAttr 14 with _ | y
    · simp [hy]
    · cases y
      case mpReachNlri nh r => simp only [hy]; exact IsLocal_set _ (PA.mpReachNlri la r)
      all_goals simp [hy]
  · rcases hy : (p.setPathAttr (PA.nextHop la)).getPathAttr 14 with _ | y
    · simp [hy, IsLocal_set]
    · cases y
      case mpReachNlri nh r =>
        simp only [hy]
        rw [IsLocal_set _ (PA.mpReachNlri la r)]
        exact IsLocal_set p (PA.nextHop la)
      all_goals simp [hy, IsLocal_set]

theorem prependAsnSegs_head (A : List Seg4) (asn : Nat) :
    ∃ l rest, prependAsnSegs A asn 1 = ⟨SegT.seq, asn :: l⟩ :: rest := by
  cases A with
  | nil => exact ⟨[], [], rfl⟩
  | cons fst rest =>
    by_cases ht : fst.typ = SegT.seq
    · by_cases hlen : 255 < fst.AS.length + 1
      · have h0 : 255 - fst.AS.length = 0 := by omega
        exact ⟨[], ⟨SegT.seq, fst.AS⟩ :: rest, by
          simp [prependAsnSegs, ht, hlen, h0]⟩
      · exact ⟨fst.AS, rest, by simp [prependAsnSegs, ht, hlen]⟩
    · exact ⟨[], fst :: rest, by simp [prependAsnSegs, ht]⟩

theorem prependAsnSegs_count (A : List Seg4) (asn : Nat) :
    ((prependAsnSegs A asn 1).map fun s => s.AS.count asn).sum =
      ((A.map fun s => s.AS.count asn).sum) + 1 := by
  cases A with
  | nil => simp [prependAsnSegs]
  | cons fst rest =>
    by_cases ht : fst.typ = SegT.seq
    · by_cases hlen : 255 < fst.AS.length + 1
      · have h0 : 255 - fst.AS.length = 0 := by omega
        simp [prependAsnSegs, ht, hlen, h0]
        omega
      · simp [prependAsnSegs, ht, hlen]
        omega
    · simp [prependAsnSegs, ht]
      omega

theorem GetAsPath_congr (p q : Path) (h : p.getPathAttr 2 = q.getPathAttr 2) :
    p.GetAsPath = q.GetAsPath := by
  unfold Path.GetAsPath
  rw [h]

theorem getPathAttr_ifdel (r : Path) (c : Prop) [Decidable c] (t u : Nat) (h : ¬u = t) :
    (if c then r.delPathAttr t else r).getPathAttr u = r.getPathAttr u := by
  split
  · exact getPathAttr_del_ne r t u h
  · rfl

theorem IsLocal_ifdel (r : Path) (c : Prop) [Decidable c] (t : Nat) :
    (if c then r.delPathAttr t else r).IsLocal = r.IsLocal := by
  split
  · exact IsLocal_del r t
  · rfl

theorem SetNexthop_get3_of_some (p : Path) (la : Nat) (x : PA)
    (hx : p.getPathAttr 3 = some x) :
    (p.SetNexthop la).getPathAttr 3 = some (PA.nextHop la) := by
  unfold Path.SetNexthop
  simp only [hx]
  have h3d : (3 : Nat) ∉ p.dels := getPathAttr_not_dels p 3 x hx
  have hset : (p.setPathAttr (PA.nextHop la)).getPathAttr 3 = some (PA.nextHop la) := by
    have := getPathAttr_set_self p (PA.nextHop la) (by simpa [PA.GetType] using h3d)
    simpa [PA.GetType] using this
  rcases hy : (p.setPathAttr (PA.nextHop la)).getPathAttr 14 with _ | y
  · simpa [hy] using hset
  · cases y
    case mpReachNlri nh r =>
      simp only [hy]
      rw [getPathAttr_set_ne _ (PA.mpReachNlri la r) 3 (by simp [PA.GetType])]
      exact hset
    all_goals simpa [hy] using hset

theorem SetNexthop_of_mp (p : Path) (la nh r : Nat)
    (hx3 : p.getPathAttr 3 = none)
    (h14 : p.getPathAttr 14 = some (PA.mpReachNlri nh r)) :
    (p.SetNexthop la).getPathAttr 14 = some (PA.mpReachNlri la r) ∧
    (p.SetNexthop la).getPathAttr 3 = none := by
  unfold Path.SetNexthop
  simp only [hx3, h14]
  constructor
  · have := getPathAttr_set_self p (PA.mpReachNlri la r)
      (by simpa [PA.GetType] using getPathAttr_not_dels p 14 _ h14)
    simpa [PA.GetType] using this
  · rw [getPathAttr_set_ne p (PA.mpReachNlri la r) 3 (by simp [PA.GetType])]
    exact hx3

/-- C5 counterexample: a non-withdraw path carrying only an ORIGIN
attribute (no NEXT_HOP, no MP_REACH_NLRI) sent to an EBGP
non-route-server peer with local transport address 7: `SetNexthop` only
rewrites an existing next-hop attribute, so the result's next hop is
empty, not the configured local address. -/
theorem UpdatePathAttrs_ebgp_counterexample :
    (Path.UpdatePathAttrs
      (Path.base (some ⟨1, ⟨65002, 65001, 5, some 9⟩, 0, false⟩) false [PA.other 1 0] [])
      ⟨65001⟩ ⟨false, 7, PeerType.external, false, false, 0⟩).GetNexthop = none ∧
    (none : Option Nat) ≠ some 7 := by
  constructor
  · decide
  · decide

/-- C5 as amended: for an EBGP, non-route-server-client peer,
`UpdatePathAttrs` (a) rewrites the next hop to the peer's configured
local address provided the path carries a next-hop (NEXT_HOP or
MP_REACH_NLRI) attribute — `SetNexthop` only rewrites an existing one;
(b) leaves the local AS as the left-most AS of the AS_PATH, occurring
once more than before (given no pending delete of AS_PATH on the node);
and (c) removes the MED attribute unless the path is locally
originated. -/
theorem UpdatePathAttrs_ebgp (p : Path) (g : GlobalConf) (peer : NeighborConf)
    (hext : peer.peerType = PeerType.external)
    (hrs : peer.RouteServerClient = false)
    (hdels : (2 : Nat) ∉ p.dels) :
    ((p.GetNexthop).isSome = true →
      (p.UpdatePathAttrs g peer).GetNexthop = some peer.LocalAddress) ∧
    (leftmostAs (p.UpdatePathAttrs g peer) = some g.As ∧
      countAs (p.UpdatePathAttrs g peer) g.As = countAs p g.As + 1) ∧
    (p.IsLocal = false → (p.UpdatePathAttrs g peer).getPathAttr 4 = none) := by
  have hq : p.UpdatePathAttrs g peer =
      (let p1 := p.SetNexthop peer.LocalAddress
       let p2 := p1.PrependAsn g.As 1
       let p3 := if (p2.getPathAttr 4).isSome ∧ p2.IsLocal = false
         then p2.delPathAttr 4 else p2
       if (p3.getPathAttr 5).isSome ∧ peer.isConfederationMember = false
         then p3.delPathAttr 5 else p3) := by
    rw [Path.UpdatePathAttrs, if_neg (by simp [hrs]), hext]
  rw [hq]
  set p1 := p.SetNexthop peer.LocalAddress with hp1
  set p2 := p1.PrependAsn g.As 1 with hp2
  set p3 := (if (p2.getPathAttr 4).isSome ∧ p2.IsLocal = false
    then p2.delPathAttr 4 else p2) with hp3
  set p4 := (if (p3.getPathAttr 5).isSome ∧ peer.isConfederationMember = false
    then p3.delPathAttr 5 else p3) with hp4
  have hPrep : ∀ t : Nat, ¬t = 2 → p2.getPathAttr t = p1.getPathAttr t := by
    intro t htne
    simp only [hp2, Path.PrependAsn]
    exact getPathAttr_set_ne p1 _ t (by simpa [PA.GetType] using htne)
  have h34 : ∀ t : Nat, ¬t = 4 → ¬t = 5 → p4.getPathAttr t = p2.getPathAttr t := by
    intro t h4 h5
    rw [hp4, getPathAttr_ifdel _ _ 5 t h5, hp3, getPathAttr_ifdel _ _ 4 t h4]
  refine ⟨?_, ?_, ?_⟩
  · -- (a) next hop
    intro hnh
    rcases hx : p.getPathAttr 3 with _ | x
    · -- no NEXT_HOP attribute: the MP_REACH_NLRI next hop was rewritten
      have hmp : ∃ nh r, p.getPathAttr 14 = some (PA.mpReachNlri nh r) := by
        unfold Path.GetNexthop at hnh
        rw [hx] at hnh
        rcases hy : p.getPathAttr 14 with _ | y
        · rw [hy] at hnh
          simp at hnh
        · cases y <;> rw [hy] at hnh <;> simp at hnh
          exact ⟨_, _, rfl⟩
      rcases hmp with ⟨nh, r, h14⟩
      have hset := SetNexthop_of_mp p peer.LocalAddress nh r hx h14
      have hq14 : p4.getPathAttr 14 = some (PA.mpReachNlri peer.LocalAddress r) := by
        rw [h34 14 (by omega) (by omega), hPrep 14 (by omega), hp1]
        exact hset.1
      have hq3 : p4.getPathAttr 3 = none := by
        rw [h34 3 (by omega) (by omega), hPrep 3 (by omega), hp1]
        exact hset.2
      unfold Path.GetNexthop
      rw [hq3, hq14]
    · have hset := SetNexthop_get3_of_some p peer.LocalAddress x hx
      have hq3 : p4.getPathAttr 3 = some (PA.nextHop peer.LocalAddress) := by
        rw [h34 3 (by omega) (by omega), hPrep 3 (by omega), hp1]
        exact hset
      unfold Path.GetNexthop
      rw [hq3]
  · -- (b) AS_PATH
    have hdels1 : (2 : Nat) ∉ p1.dels := by
      rw [hp1, SetNexthop_dels]
      exact hdels
    have hget2 : p1.getPathAttr 2 = p.getPathAttr 2 :=
      SetNexthop_get_ne p peer.LocalAddress 2 (by omega) (by omega)
    have hA : p1.GetAsPath = p.GetAsPath := GetAsPath_congr _ _ hget2
    obtain ⟨A, hAdef⟩ : ∃ A : List Seg4,
        (match p1.GetAsPath with
         | none => []
         | some v => cloneAsPath v) = A := ⟨_, rfl⟩
    have hset2 : p2.getPathAttr 2 =
        some (PA.asPath ((prependAsnSegs A g.As 1).map AsSeg.as4)) := by
      simp only [hp2, Path.PrependAsn]
      rw [hAdef]
      have := getPathAttr_set_self p1
        (PA.asPath ((prependAsnSegs A g.As 1).map AsSeg.as4))
        (by simpa [PA.GetType] using hdels1)
      simpa [PA.GetType] using this
    have hq2 : p4.getPathAttr 2 = p2.getPathAttr 2 := h34 2 (by omega) (by omega)
    have hqAs : p4.GetAsPath =
        some ((prependAsnSegs A g.As 1).map AsSeg.as4) := by
      unfold Path.GetAsPath
      rw [hq2, hset2]
    constructor
    · rcases prependAsnSegs_head A g.As with ⟨l, rest, hpre⟩
      unfold leftmostAs
      rw [hqAs, hpre]
      simp [toSeg4]
    · have hcount4 : countAs p4 g.As =
          ((prependAsnSegs A g.As 1).map fun s => s.AS.count g.As).sum := by
        unfold countAs
        rw [hqAs]
        simp only [Option.getD_some, List.map_map]
        exact congrArg List.sum (List.map_congr_left fun s _ => rfl)
      have hcountp : ((A.map fun s => s.AS.count g.As).sum) = countAs p g.As := by
        unfold countAs
        rw [← hA, ← hAdef]
        rcases hv : p1.GetAsPath with _ | v
        · simp
        · simp only [Option.getD_some, cloneAsPath, List.map_map]
          exact congrArg List.sum (List.map_congr_left fun s _ => rfl)
      rw [hcount4, prependAsnSegs_count, hcountp]
  · -- (c) MED
    intro hlocal
    have hlocal2 : p2.IsLocal = false := by
      rw [hp2, Path.PrependAsn, IsLocal_set, hp1, SetNexthop_IsLocal]
      exact hlocal
    by_cases hmed : (p2.getPathAttr 4).isSome = true
    · have hcond : ((p2.getPathAttr 4).isSome ∧ p2.IsLocal = false) := ⟨hmed, hlocal2⟩
      have h3 : p3 = p2.delPathAttr 4 := by rw [hp3, if_pos hcond]
      have : p3.getPathAttr 4 = none := by rw [h3]; exact getPathAttr_del_self p2 4
      rw [hp4, getPathAttr_ifdel _ _ 5 4 (by omega)]
      exact this
    · have h4none : p2.getPathAttr 4 = none := by
        rcases h : p2.getPathAttr 4 with _ | z
        · rfl
        · rw [h] at hmed
          simp at hmed
      have h3 : p3 = p2 := by
        rw [hp3, if_neg]
        intro hc
        rw [h4none] at hc
        simp at hc
      rw [hp4, getPathAttr_ifdel _ _ 5 4 (by omega), h3]
      exact h4none

/-- Witness for C5 as amended: a concrete EBGP peer and a path carrying
NEXT_HOP, MED and a one-AS AS_PATH. -/
theorem UpdatePathAttrs_ebgp_witness :
    ((Path.base (some ⟨1, ⟨65002, 65001, 5, some 9⟩, 0, false⟩) false
        [PA.nextHop 3, PA.multiExitDisc 50, PA.asPath [AsSeg.as4 ⟨SegT.seq, [65002]⟩]]
        []).UpdatePathAttrs ⟨65001⟩
      ⟨false, 7, PeerType.external, false, false, 0⟩).GetNexthop = some 7 ∧
    leftmostAs ((Path.base (some ⟨1, ⟨65002, 65001, 5, some 9⟩, 0, false⟩) false
        [PA.nextHop 3, PA.multiExitDisc 50, PA.asPath [AsSeg.as4 ⟨SegT.seq, [65002]⟩]]
        []).UpdatePathAttrs ⟨65001⟩
      ⟨false, 7, PeerType.external, false, false, 0⟩) = some 65001 := by
  have h := UpdatePathAttrs_ebgp
    (Path.base (some ⟨1, ⟨65002, 65001, 5, some 9⟩, 0, false⟩) false
      [PA.nextHop 3, PA.multiExitDisc 50, PA.asPath [AsSeg.as4 ⟨SegT.seq, [65002]⟩]] [])
    ⟨65001⟩ ⟨false, 7, PeerType.external, false, false, 0⟩ rfl rfl (by decide)
  exact ⟨h.1 (by decide), h.2.1.1⟩

/-- Invariant of an open message of the packing loop: built from
IPv4-unicast announcements with small NLRIs, and — once it holds more
than one NLRI — within the margin the pre-append check guarantees. -/
def goodOpen (m : UpdMsg) : Prop :=
  m.withdrawnLens = [] ∧ (∀ x ∈ m.nlriLens, x ≤ 5) ∧
  (1 < m.nlriLens.length →
    19 + 2 + 2 + attrsTotal m + m.nlriLens.length * 5 ≤ 4064)

theorem goodOpen_new (p : BPath) (hip : p.isIPv4UC = true) (hw : p.IsWithdraw = false)
    (h5 : p.nlriLen ≤ 5) : goodOpen (createUpdateMsgFromPathNil p) := by
  simp [createUpdateMsgFromPathNil, hip, hw, goodOpen, h5]

theorem packGo_sound (l : List BPath) (m : UpdMsg) (hm : goodOpen m)
    (hl : ∀ p ∈ l, p.isIPv4UC = true ∧ p.IsWithdraw = false ∧ p.nlriLen ≤ 5) :
    ∀ out ∈ packGo l m, goodOpen out := by
  induction l generalizing m with
  | nil =>
    intro out hout
    simp only [packGo, List.mem_singleton] at hout
    subst hout
    exact hm
  | cons p rest ih =>
    intro out hout
    rcases hl p (by simp) with ⟨hip, hw, h5⟩
    have hrest : ∀ q ∈ rest, q.isIPv4UC = true ∧ q.IsWithdraw = false ∧ q.nlriLen ≤ 5 :=
      fun q hq => hl q (by simp [hq])
    by_cases hc : projectedLen m + 32 > BGP_MAX_MESSAGE_LENGTH
    · simp only [packGo, if_pos hc, List.mem_cons] at hout
      rcases hout with rfl | hout
      · exact hm
      · exact ih (createUpdateMsgFromPathNil p) (goodOpen_new p hip hw h5) hrest out hout
    · simp only [packGo, if_neg hc] at hout
      refine ih (mergeIntoMsg p m) ?_ hrest out hout
      rcases hm with ⟨hwm, h5m, hbm⟩
      refine ⟨hwm, ?_, ?_⟩
      · intro x hx
        rcases List.mem_append.mp hx with hx | hx
        · exact h5m x hx
        · rw [List.mem_singleton] at hx
          subst hx
          exact h5
      · intro _
        have : projectedLen m + 32 ≤ BGP_MAX_MESSAGE_LENGTH := by omega
        unfold projectedLen BGP_MAX_MESSAGE_LENGTH at this
        simp only [mergeIntoMsg, attrsTotal, List.length_append, List.length_singleton]
        unfold attrsTotal at this
        omega

theorem standalone_len (p : BPath) : (createUpdateMsgFromPathNil p).nlriLens.length ≤ 1 := by
  unfold createUpdateMsgFromPathNil
  split <;> split <;> simp

theorem bucketsInsert_inv (p : BPath) (buckets : List (List Nat × List BPath))
    (P : BPath → Prop) (hp : P p) (hbuckets : ∀ b ∈ buckets, ∀ q ∈ b.2, P q) :
    ∀ b ∈ bucketsInsert p buckets, ∀ q ∈ b.2, P q := by
  induction buckets with
  | nil =>
    intro b hb q hq
    simp only [bucketsInsert, List.mem_singleton] at hb
    subst hb
    rw [List.mem_singleton] at hq
    subst hq
    exact hp
  | cons b0 bs ih =>
    intro b hb q hq
    by_cases hk : b0.1 = attrBytes p
    · simp only [bucketsInsert, if_pos hk, List.mem_cons] at hb
      rcases hb with rfl | hb
      · rcases List.mem_append.mp hq with hq | hq
        · exact hbuckets b0 (by simp) q hq
        · rw [List.mem_singleton] at hq
          subst hq
          exact hp
      · exact hbuckets b (by simp [hb]) q hq
    · simp only [bucketsInsert, if_neg hk, List.mem_cons] at hb
      rcases hb with rfl | hb
      · exact hbuckets b (by simp) q hq
      · exact ih (fun c hc r hr => hbuckets c (by simp [hc]) r hr) b hb q hq

theorem splitPathsGo_inv (l : List BPath) (hl : ∀ p ∈ l, p.nlriLen ≤ 5)
    (msgs : List UpdMsg) (buckets : List (List Nat × List BPath))
    (hmsgs : ∀ m ∈ msgs, m.nlriLens.length ≤ 1)
    (hbuckets : ∀ b ∈ buckets, ∀ q ∈ b.2,
      q.isIPv4UC = true ∧ q.IsWithdraw = false ∧ q.nlriLen ≤ 5) :
    (∀ m ∈ (splitPathsGo l (msgs, buckets)).1, m.nlriLens.length ≤ 1) ∧
    (∀ b ∈ (splitPathsGo l (msgs, buckets)).2, ∀ q ∈ b.2,
      q.isIPv4UC = true ∧ q.IsWithdraw = false ∧ q.nlriLen ≤ 5) := by
  induction l generalizing msgs buckets with
  | nil => exact ⟨hmsgs, hbuckets⟩
  | cons p rest ih =>
    have hrest : ∀ q ∈ rest, q.nlriLen ≤ 5 := fun q hq => hl q (by simp [hq])
    have hp5 : p.nlriLen ≤ 5 := hl p (by simp)
    by_cases hc : p.isIPv4UC = true ∧ ¬p.IsWithdraw = true
    · simp only [splitPathsGo, if_pos hc]
      exact ih hrest msgs (bucketsInsert p buckets) hmsgs
        (bucketsInsert_inv p buckets _
          ⟨hc.1, by simpa using hc.2, hp5⟩ hbuckets)
    · simp only [splitPathsGo, if_neg hc]
      refine ih hrest (msgs ++ [createUpdateMsgFromPathNil p]) buckets ?_ hbuckets
      intro m hm
      rcases List.mem_append.mp hm with hm | hm
      · exact hmsgs m hm
      · rw [List.mem_singleton] at hm
        subst hm
        exact standalone_len p

theorem goodOpen_size (m : UpdMsg) (hm : goodOpen m) (hmulti : 1 < m.nlriLens.length) :
    msgSize m ≤ BGP_MAX_MESSAGE_LENGTH := by
  rcases hm with ⟨hw, h5, hb⟩
  have hsum : m.nlriLens.sum ≤ m.nlriLens.length * 5 := by
    have := List.sum_le_card_nsmul m.nlriLens 5 h5
    simpa [smul_eq_mul] using this
  have hbb := hb hmulti
  unfold msgSize BGP_MAX_MESSAGE_LENGTH
  rw [hw]
  simp only [List.sum_nil]
  omega

/-- C3 counterexample: a single IPv4-unicast announcement whose
attributes serialize to 4100 octets becomes one UPDATE of 4128 octets —
the first message of a bucket is never size-checked, so the batcher can
emit a wire message beyond 4096 octets. -/
theorem batcher_size_counterexample :
    CreateUpdateMsgFromPaths [⟨true, false, [⟨1, List.replicate 4100 0⟩], 5, []⟩] =
      [⟨[], [⟨1, List.replicate 4100 0⟩], [5]⟩] ∧
    BGP_MAX_MESSAGE_LENGTH < msgSize ⟨[], [⟨1, List.replicate 4100 0⟩], [5]⟩ := by
  constructor
  · rfl
  · unfold msgSize attrsTotal BAttr.Len BGP_MAX_MESSAGE_LENGTH
    simp only [List.map_cons, List.map_nil, List.sum_cons, List.sum_nil,
      List.length_replicate]
    omega

/-- C3 as amended: before appending a further IPv4-unicast NLRI to an
open UPDATE the batcher checks
`19 + 2 + 2 + sum(attr.Len()) + (n_nlri + 1)*5 + 32 > 4096` and starts a
new UPDATE when the check trips; consequently every produced UPDATE that
carries more than one NLRI has serialized size at most 4096 octets
(IPv4 prefixes serialize to at most 5 octets). A single-path UPDATE can
exceed the limit when the attributes of that path alone do. -/
theorem CreateUpdateMsgFromPaths_bounded :
    (∀ (m : UpdMsg) (p : BPath) (rest : List BPath),
      packGo (p :: rest) m =
        if 19 + 2 + 2 + attrsTotal m + (m.nlriLens.length + 1) * 5 + 32 >
            BGP_MAX_MESSAGE_LENGTH then
          m :: packGo rest (createUpdateMsgFromPathNil p)
        else packGo rest (mergeIntoMsg p m)) ∧
    (∀ pathList : List BPath, (∀ p ∈ pathList, p.nlriLen ≤ 5) →
      ∀ m ∈ CreateUpdateMsgFromPaths pathList, 1 < m.nlriLens.length →
        msgSize m ≤ BGP_MAX_MESSAGE_LENGTH) := by
  constructor
  · intro m p rest
    rfl
  · intro pl h5 m hm hmulti
    simp only [CreateUpdateMsgFromPaths] at hm
    rcases List.mem_append.mp hm with hm1 | hm2
    · have := (splitPathsGo_inv pl h5 [] [] (by simp) (by simp)).1 m hm1
      omega
    · rcases List.mem_flatten.mp hm2 with ⟨ms, hms, hmem⟩
      rcases List.mem_map.mp hms with ⟨b, hb, rfl⟩
      have hgood := (splitPathsGo_inv pl h5 [] [] (by simp) (by simp)).2 b hb
      rcases hb2 : b.2 with _ | ⟨p, rest⟩
      · rw [hb2] at hmem
        simp [packBucket] at hmem
      · rw [hb2] at hmem
        simp only [packBucket] at hmem
        have hp := hgood p (by rw [hb2]; simp)
        have hrest : ∀ q ∈ rest, q.isIPv4UC = true ∧ q.IsWithdraw = false ∧
            q.nlriLen ≤ 5 := fun q hq => hgood q (by rw [hb2]; simp [hq])
        have := packGo_sound rest (createUpdateMsgFromPathNil p)
          (goodOpen_new p hp.1 hp.2.1 hp.2.2) hrest m hmem
        exact goodOpen_size m this hmulti

/-- Witness for C3 as amended: two announcements sharing 3-octet
attributes coalesce into one two-NLRI UPDATE within the limit. -/
theorem CreateUpdateMsgFromPaths_bounded_witness :
    msgSize ⟨[], [⟨1, [7, 7, 7]⟩], [5, 4]⟩ ≤ BGP_MAX_MESSAGE_LENGTH := by
  have h := CreateUpdateMsgFromPaths_bounded.2
    [⟨true, false, [⟨1, [7, 7, 7]⟩], 5, []⟩, ⟨true, false, [⟨1, [7, 7, 7]⟩], 4, []⟩]
    (by decide) ⟨[], [⟨1, [7, 7, 7]⟩], [5, 4]⟩ (by decide)
  exact h (by decide)

theorem isAs4Path_widen (a : PA) : (widenAttr a).isAs4Path = a.isAs4Path := by
  cases a <;> rfl

theorem toSeg4_widenSeg (s : AsSeg) : toSeg4 (widenSeg s) = toSeg4 s := by
  cases s <;> rfl

theorem lastAsPathGo_no (l : List PA) (h : ∀ a ∈ l, a.isAsPath = false) :
    ∀ (i : Nat) (acc : Option (Nat × List AsSeg)), lastAsPathGo l i acc = acc := by
  induction l with
  | nil => intro i acc; rfl
  | cons a rest ih =>
    intro i acc
    have ha := h a (by simp)
    have hr : ∀ b ∈ rest, b.isAsPath = false := fun b hb => h b (by simp [hb])
    cases a <;> simp_all [lastAsPathGo, PA.isAsPath]

theorem lastAsPathGo_append (l1 l2 : List PA) (i : Nat) (acc : Option (Nat × List AsSeg)) :
    lastAsPathGo (l1 ++ l2) i acc =
      lastAsPathGo l2 (i + l1.length) (lastAsPathGo l1 i acc) := by
  induction l1 generalizing i acc with
  | nil => simp [lastAsPathGo]
  | cons a rest ih =>
    cases a <;>
      simp only [List.cons_append, lastAsPathGo, List.length_cons, List.append_eq] <;>
      rw [ih] <;> congr 1 <;> omega

theorem lastAs4PathGo_append (l1 l2 : List PA) (i : Nat) (acc : Option (Nat × List Seg4)) :
    lastAs4PathGo (l1 ++ l2) i acc =
      lastAs4PathGo l2 (i + l1.length) (lastAs4PathGo l1 i acc) := by
  induction l1 generalizing i acc with
  | nil => simp [lastAs4PathGo]
  | cons a rest ih =>
    cases a <;>
      simp only [List.cons_append, lastAs4PathGo, List.length_cons, List.append_eq] <;>
      rw [ih] <;> congr 1 <;> omega

theorem eraseIdx_at_length {α : Type} (mid post : List α) (y : α) :
    (mid ++ y :: post).eraseIdx mid.length = mid ++ post := by
  induction mid with
  | nil => rfl
  | cons a rest ih => simpa [List.eraseIdx] using ih

theorem asLenOf_cons (p : Seg4) (l : List Seg4) :
    asLenOf (p :: l) = p.ASLen + asLenOf l := by
  simp [asLenOf]

theorem asLenOf_append (l1 l2 : List Seg4) :
    asLenOf (l1 ++ l2) = asLenOf l1 + asLenOf l2 := by
  simp [asLenOf]

theorem seq_ASLen (s : Seg4) (h : s.typ = SegT.seq) : s.ASLen = s.AS.length := by
  unfold Seg4.ASLen
  rw [h]

theorem confedLenOf_seq (l : List Seg4) (h : ∀ s ∈ l, s.typ = SegT.seq) :
    confedLenOf l = 0 := by
  induction l with
  | nil => rfl
  | cons p rest ih =>
    have hp := h p (by simp)
    have : p.confedLen = 0 := by unfold Seg4.confedLen; rw [hp]
    simp only [confedLenOf, List.map_cons, List.sum_cons] at *
    rw [this, ih fun s hs => h s (by simp [hs])]

theorem ASLen_le_of_mem (s : Seg4) (l : List Seg4) (h : s ∈ l) :
    s.ASLen ≤ asLenOf l := by
  unfold asLenOf
  exact List.single_le_sum (fun x _ => Nat.zero_le x) s.ASLen
    (List.mem_map_of_mem Seg4.ASLen h)

theorem keepLoop_spec (A4 : List Seg4) (k : Nat)
    (hseq : ∀ s ∈ A4, s.typ = SegT.seq) (hk : k ≤ asLenOf A4) :
    asLenOf (keepLoop A4 k) = k ∧ (∀ s ∈ keepLoop A4 k, s.typ = SegT.seq) ∧
    (A4 ≠ [] → keepLoop A4 k ≠ []) := by
  induction A4 generalizing k with
  | nil =>
    have : k = 0 := by simpa [asLenOf] using hk
    subst this
    exact ⟨rfl, by simp [keepLoop], fun h => absurd rfl h⟩
  | cons p rest ih =>
    have hp := hseq p (by simp)
    have hpl : p.ASLen = p.AS.length := seq_ASLen p hp
    have hkc : k ≤ p.ASLen + asLenOf rest := by
      rw [asLenOf_cons] at hk
      exact hk
    by_cases h1 : p.ASLen ≤ k
    · by_cases h2 : k - p.ASLen = 0
      · have hkeq : k = p.ASLen := by omega
        refine ⟨?_, ?_, ?_⟩
        · have hone : asLenOf [p] = p.ASLen := by simp [asLenOf]
          simp only [keepLoop, if_pos h1, if_pos h2]
          rw [hone]
          omega
        · simp only [keepLoop, if_pos h1, if_pos h2]
          intro s hs
          rw [List.mem_singleton] at hs
          subst hs
          exact hp
        · simp [keepLoop, if_pos h1, if_pos h2]
      · have hr := ih (k - p.ASLen) (fun s hs => hseq s (by simp [hs])) (by omega)
        refine ⟨?_, ?_, ?_⟩
        · simp only [keepLoop, if_pos h1, if_neg h2, asLenOf_cons]
          omega
        · simp only [keepLoop, if_pos h1, if_neg h2]
          intro s hs
          rcases List.mem_cons.mp hs with rfl | hs
          · exact hp
          · exact hr.2.1 s hs
        · simp [keepLoop, if_pos h1, if_neg h2]
    · refine ⟨?_, ?_, ?_⟩
      · simp only [keepLoop, if_neg h1]
        have : ({ typ := p.typ, AS := p.AS.take k } : Seg4).ASLen = k := by
          rw [seq_ASLen _ (by simpa using hp)]
          simp
          omega
        simp [asLenOf, this]
      · simp only [keepLoop, if_neg h1]
        intro s hs
        rw [List.mem_singleton] at hs
        subst hs
        simpa using hp
      · simp [keepLoop, if_neg h1]

theorem graft_spec (ps : List Seg4) (acc : List Seg4)
    (hacc : ∀ s ∈ acc, s.typ = SegT.seq) (hps : ∀ s ∈ ps, s.typ = SegT.seq)
    (hne : acc ≠ []) (hbound : asLenOf acc + asLenOf ps ≤ 255) :
    ∃ M, graft acc ps = some M ∧ asLenOf M = asLenOf acc + asLenOf ps ∧
      (∀ s ∈ M, s.typ = SegT.seq) ∧ M ≠ [] := by
  induction ps generalizing acc with
  | nil => exact ⟨acc, rfl, by simp [asLenOf], hacc, hne⟩
  | cons p rest ih =>
    have hlast : acc.getLast? = some (acc.getLast hne) := List.getLast?_eq_getLast acc hne
    have hlmem : acc.getLast hne ∈ acc := List.getLast_mem hne
    have hltyp : (acc.getLast hne).typ = SegT.seq := hacc _ hlmem
    have hptyp : p.typ = SegT.seq := hps p (by simp)
    have hll : (acc.getLast hne).ASLen = (acc.getLast hne).AS.length :=
      seq_ASLen _ hltyp
    have hpp : p.ASLen = p.AS.length := seq_ASLen p hptyp
    have hl_le : (acc.getLast hne).ASLen ≤ asLenOf acc := ASLen_le_of_mem _ acc hlmem
    have hp_le : p.ASLen ≤ asLenOf (p :: rest) := ASLen_le_of_mem p _ (by simp)
    have hnoov : ¬255 < (acc.getLast hne).AS.length + p.AS.length := by
      rw [asLenOf_cons] at hbound
      omega
    have hdrop : acc.dropLast ++ [acc.getLast hne] = acc :=
      List.dropLast_append_getLast hne
    have hdlen : asLenOf acc.dropLast + (acc.getLast hne).ASLen = asLenOf acc := by
      conv_rhs => rw [← hdrop]
      rw [asLenOf_append]
      simp [asLenOf]
    set acc' := acc.dropLast ++ [(⟨SegT.seq, (acc.getLast hne).AS ++ p.AS⟩ : Seg4)]
      with hacc'
    have hacc'typ : ∀ s ∈ acc', s.typ = SegT.seq := by
      intro s hs
      rcases List.mem_append.mp hs with hs | hs
      · exact hacc s ((List.dropLast_sublist acc).subset hs)
      · rw [List.mem_singleton] at hs
        subst hs
        rfl
    have hacc'ne : acc' ≠ [] := by
      simp [hacc']
    have hacc'len : asLenOf acc' = asLenOf acc + p.ASLen := by
      rw [hacc', asLenOf_append]
      have hone : asLenOf [(⟨SegT.seq, (acc.getLast hne).AS ++ p.AS⟩ : Seg4)] =
          (acc.getLast hne).AS.length + p.AS.length := by
        simp [asLenOf, Seg4.ASLen]
      rw [hone]
      omega
    have hbound' : asLenOf acc' + asLenOf rest ≤ 255 := by
      rw [hacc'len]
      rw [asLenOf_cons] at hbound
      omega
    rcases ih acc' hacc'typ (fun s hs => hps s (by simp [hs])) hacc'ne hbound'
      with ⟨M, hM, hMlen, hMtyp, hMne⟩
    refine ⟨M, ?_, ?_, hMtyp, hMne⟩
    · simp only [graft, hlast]
      rw [if_pos ⟨by rw [hptyp, hltyp], hptyp⟩, if_neg hnoov]
      exact hM
    · rw [hMlen, hacc'len, asLenOf_cons]
      omega

/-- Attribute lists free of AS_PATH and AS4_PATH attributes. -/
def noAsAttrs (l : List PA) : Prop :=
  ∀ a ∈ l, a.isAsPath = false ∧ a.isAs4Path = false

theorem UpdatePathAttrs4ByteAs_canonical (pre mid post : List PA) (A : List AsSeg)
    (B : List Seg4) (hpre : noAsAttrs pre) (hmid : noAsAttrs mid)
    (hpost : noAsAttrs post) :
    UpdatePathAttrs4ByteAs (pre ++ PA.asPath A :: mid ++ PA.as4Path B :: post) =
      (if asLenOf (A.map toSeg4) + confedLenOf (A.map toSeg4) <
          asLenOf (B.filter fun s => !segIsConfed s) then
        some (pre ++ PA.asPath (A.map widenSeg) :: mid ++ post)
      else
        (reconcileCore (A.map toSeg4) (B.filter fun s => !segIsConfed s)).map
          fun merged => pre ++ PA.asPath (merged.map AsSeg.as4) :: mid ++ post) := by
  have hmap : (pre ++ PA.asPath A :: mid ++ PA.as4Path B :: post).map widenAttr =
      pre ++ PA.asPath (A.map widenSeg) :: mid ++ PA.as4Path B :: post := by
    simp only [List.map_append, List.map_cons]
    rw [map_eq_self pre _ fun a ha => widenAttr_eq_self a (hpre a ha).1]
    rw [map_eq_self mid _ fun a ha => widenAttr_eq_self a (hmid a ha).1]
    rw [map_eq_self post _ fun a ha => widenAttr_eq_self a (hpost a ha).1]
    rfl
  have hlA : lastAsPath (pre ++ PA.asPath (A.map widenSeg) :: mid ++ PA.as4Path B :: post) =
      some (pre.length, A.map widenSeg) := by
    unfold lastAsPath
    rw [lastAsPathGo_append, lastAsPathGo_append,
      lastAsPathGo_no pre fun a ha => (hpre a ha).1]
    simp only [lastAsPathGo, Nat.zero_add]
    rw [lastAsPathGo_no mid fun a ha => (hmid a ha).1,
      lastAsPathGo_no post fun a ha => (hpost a ha).1]
  have hidx : (pre ++ PA.asPath (A.map widenSeg) :: mid).length =
      pre.length + 1 + mid.length := by
    simp only [List.length_append, List.length_cons]
    omega
  have hl4 : lastAs4Path (pre ++ PA.asPath (A.map widenSeg) :: mid ++ PA.as4Path B :: post) =
      some (pre.length + 1 + mid.length, B) := by
    unfold lastAs4Path
    rw [lastAs4PathGo_append, lastAs4PathGo_append,
      lastAs4PathGo_no pre fun a ha => (hpre a ha).2]
    simp only [lastAs4PathGo, Nat.zero_add]
    rw [lastAs4PathGo_no post fun a ha => (hpost a ha).2, hidx]
  have herase : ((pre ++ PA.asPath (A.map widenSeg) :: mid) ++ PA.as4Path B :: post).eraseIdx
      (pre.length + 1 + mid.length) =
      (pre ++ PA.asPath (A.map widenSeg) :: mid) ++ post := by
    rw [← hidx, eraseIdx_at_length]
  have hA4 : (A.map widenSeg).map toSeg4 = A.map toSeg4 := by
    rw [List.map_map]
    exact List.map_congr_left fun s _ => toSeg4_widenSeg s
  simp only [UpdatePathAttrs4ByteAs, hmap, hlA, hl4, herase, hA4]
  by_cases hlt : asLenOf (A.map toSeg4) + confedLenOf (A.map toSeg4) <
      asLenOf (B.filter fun s => !segIsConfed s)
  · rw [if_pos hlt, if_pos hlt]
  · rw [if_neg hlt, if_neg hlt]
    rcases hrc : reconcileCore (A.map toSeg4) (B.filter fun s => !segIsConfed s)
      with _ | merged
    · rfl
    · simp only [Option.map_some]
      have hguard : pre.length <
          ((pre ++ PA.asPath (A.map widenSeg) :: mid) ++ post).length := by
        simp only [List.length_append, List.length_cons]
        omega
      rw [if_pos hguard]
      rw [List.append_assoc, List.cons_append, set_append_length]
      simp [List.append_assoc]

theorem reconcileCore_len (A4 B4 : List Seg4)
    (hA : ∀ s ∈ A4, s.typ = SegT.seq) (hB : ∀ s ∈ B4, s.typ = SegT.seq ∧ s.AS ≠ [])
    (hle : asLenOf B4 ≤ asLenOf A4) (h255 : asLenOf A4 ≤ 255) :
    ∃ M, reconcileCore A4 B4 = some M ∧
      asLenOf M = max (asLenOf A4) (asLenOf B4) := by
  have hconf : confedLenOf A4 = 0 := confedLenOf_seq A4 hA
  simp only [reconcileCore, hconf, Nat.add_zero]
  have hkeep := keepLoop_spec A4 (asLenOf A4 - asLenOf B4) hA (by omega)
  rcases hBe : B4 with _ | ⟨b, brest⟩
  · subst hBe
    refine ⟨keepLoop A4 (asLenOf A4 - asLenOf []), rfl, ?_⟩
    have h0 : asLenOf ([] : List Seg4) = 0 := rfl
    rw [hkeep.1]
    rw [h0]
    omega
  · subst hBe
    have hb1 : 1 ≤ b.ASLen := by
      rw [seq_ASLen b (hB b (by simp)).1]
      have := (hB b (by simp)).2
      cases hbAS : b.AS
      · exact absurd hbAS this
      · simp [hbAS]
    have hB1 : 1 ≤ asLenOf (b :: brest) := by
      rw [asLenOf_cons]
      omega
    have hAne : A4 ≠ [] := by
      intro h
      subst h
      simp [asLenOf] at hle
      omega
    have hbound : asLenOf (keepLoop A4 (asLenOf A4 - asLenOf (b :: brest))) +
        asLenOf (b :: brest) ≤ 255 := by
      rw [hkeep.1]
      omega
    rcases graft_spec (b :: brest) (keepLoop A4 (asLenOf A4 - asLenOf (b :: brest)))
      hkeep.2.1 (fun s hs => (hB s hs).1) (hkeep.2.2 hAne) hbound
      with ⟨M, hM, hMlen, _, _⟩
    refine ⟨M, hM, ?_⟩
    rw [hMlen, hkeep.1]
    omega

/-- C1 counterexample: AS_PATH = CONFED_SEQ [1], SEQ [2] (non-confed
length 1) with AS4_PATH = SEQ [10, 11] (length 2). The claim's discard
condition holds — AS4_PATH is longer than the non-confed part — yet the
source merges (its test adds the confederation length) and even drops
the SEQ [2] segment, so the result is not the widened original. -/
theorem UpdatePathAttrs4ByteAs_claim_counterexample :
    asLenOf ([⟨SegT.confedSeq, [1]⟩, ⟨SegT.seq, [2]⟩] : List Seg4) <
      asLenOf ([⟨SegT.seq, [10, 11]⟩] : List Seg4) ∧
    UpdatePathAttrs4ByteAs
        [PA.asPath [AsSeg.as4 ⟨SegT.confedSeq, [1]⟩, AsSeg.as4 ⟨SegT.seq, [2]⟩],
          PA.as4Path [⟨SegT.seq, [10, 11]⟩]] =
      some [PA.asPath [AsSeg.as4 ⟨SegT.confedSeq, [1]⟩,
        AsSeg.as4 ⟨SegT.seq, [10, 11]⟩]] ∧
    some [PA.asPath [AsSeg.as4 ⟨SegT.confedSeq, [1]⟩, AsSeg.as4 ⟨SegT.seq, [10, 11]⟩]] ≠
      some [PA.asPath [AsSeg.as4 ⟨SegT.confedSeq, [1]⟩, AsSeg.as4 ⟨SegT.seq, [2]⟩]] := by
  decide

/-- C1 as amended: after `UpdatePathAttrs4ByteAs` no AS4_PATH attribute
remains — an UPDATE without one is merely widened, a lone AS4_PATH is
removed; CONFED segments inside AS4_PATH are dropped before any length
is computed; AS4_PATH is discarded (and AS_PATH only widened) exactly
when it is longer than the WHOLE AS_PATH — non-confed length plus
confederation-segment length — not merely its non-confed part; otherwise
the kept prefix of AS_PATH is grafted with the AS4_PATH segments, and
when every segment involved is a nonempty AS_SEQUENCE and the AS_PATH
length is at most 255 the combined length equals
max(len(AS_PATH), len(AS4_PATH)). -/
theorem UpdatePathAttrs4ByteAs_amended :
    (∀ attrs : List PA, (∀ a ∈ attrs, a.isAs4Path = false) →
      UpdatePathAttrs4ByteAs attrs = some (attrs.map widenAttr) ∧
      ∀ a ∈ attrs.map widenAttr, a.isAs4Path = false) ∧
    (∀ (pre post : List PA) (B : List Seg4), noAsAttrs pre → noAsAttrs post →
      UpdatePathAttrs4ByteAs (pre ++ PA.as4Path B :: post) = some (pre ++ post)) ∧
    (∀ (pre mid post : List PA) (A : List AsSeg) (B : List Seg4),
      noAsAttrs pre → noAsAttrs mid → noAsAttrs post →
      (asLenOf (A.map toSeg4) + confedLenOf (A.map toSeg4) <
          asLenOf (B.filter fun s => !segIsConfed s) →
        UpdatePathAttrs4ByteAs (pre ++ PA.asPath A :: mid ++ PA.as4Path B :: post) =
          some (pre ++ PA.asPath (A.map widenSeg) :: mid ++ post)) ∧
      (∀ M : List Seg4,
        ¬(asLenOf (A.map toSeg4) + confedLenOf (A.map toSeg4) <
          asLenOf (B.filter fun s => !segIsConfed s)) →
        reconcileCore (A.map toSeg4) (B.filter fun s => !segIsConfed s) = some M →
        UpdatePathAttrs4ByteAs (pre ++ PA.asPath A :: mid ++ PA.as4Path B :: post) =
          some (pre ++ PA.asPath (M.map AsSeg.as4) :: mid ++ post))) ∧
    (∀ A4 B4 : List Seg4, (∀ s ∈ A4, s.typ = SegT.seq) →
      (∀ s ∈ B4, s.typ = SegT.seq ∧ s.AS ≠ []) →
      asLenOf B4 ≤ asLenOf A4 → asLenOf A4 ≤ 255 →
      ∃ M, reconcileCore A4 B4 = some M ∧
        asLenOf M = max (asLenOf A4) (asLenOf B4)) := by
  refine ⟨?_, ?_, ?_, reconcileCore_len⟩
  · intro attrs h
    have h1 : ∀ a ∈ attrs.map widenAttr, a.isAs4Path = false := by
      intro a ha
      rcases List.mem_map.mp ha with ⟨b, hb, rfl⟩
      rw [isAs4Path_widen]
      exact h b hb
    have h4 : lastAs4Path (attrs.map widenAttr) = none := lastAs4PathGo_no _ h1 0 none
    refine ⟨?_, h1⟩
    simp only [UpdatePathAttrs4ByteAs, h4]
    rcases hA : lastAsPath (attrs.map widenAttr) with _ | v <;> simp
  · intro pre post B hpre hpost
    have hmap : (pre ++ PA.as4Path B :: post).map widenAttr =
        pre ++ PA.as4Path B :: post := by
      rw [List.map_append, List.map_cons]
      rw [map_eq_self pre _ fun a ha => widenAttr_eq_self a (hpre a ha).1]
      rw [map_eq_self post _ fun a ha => widenAttr_eq_self a (hpost a ha).1]
      rfl
    have hl4 : lastAs4Path (pre ++ PA.as4Path B :: post) = some (pre.length, B) := by
      unfold lastAs4Path
      rw [lastAs4PathGo_append, lastAs4PathGo_no pre fun a ha => (hpre a ha).2]
      simp only [lastAs4PathGo, Nat.zero_add]
      rw [lastAs4PathGo_no post fun a ha => (hpost a ha).2]
    have hlA : lastAsPath (pre ++ PA.as4Path B :: post) = none := by
      unfold lastAsPath
      rw [lastAsPathGo_append, lastAsPathGo_no pre fun a ha => (hpre a ha).1]
      simp only [lastAsPathGo, Nat.zero_add]
      rw [lastAsPathGo_no post fun a ha => (hpost a ha).1]
    simp only [UpdatePathAttrs4ByteAs, hmap, hl4, hlA]
    rw [eraseIdx_at_length]
  · intro pre mid post A B hpre hmid hpost
    have hc := UpdatePathAttrs4ByteAs_canonical pre mid post A B hpre hmid hpost
    constructor
    · intro hlt
      rw [hc, if_pos hlt]
    · intro M hnlt hM
      rw [hc, if_neg hnlt, hM]
      rfl

/-- Witness for C1 as amended: the AS_TRANS reconciliation of AS_PATH
SEQ [23456, 300, 400] with AS4_PATH SEQ [131073] merges into
SEQ [23456, 300, 131073]. -/
theorem UpdatePathAttrs4ByteAs_amended_witness :
    UpdatePathAttrs4ByteAs [PA.other 1 0,
        PA.asPath [AsSeg.as2 SegT.seq [23456, 300, 400]],
        PA.as4Path [⟨SegT.seq, [131073]⟩], PA.nextHop 9] =
      some [PA.other 1 0, PA.asPath [AsSeg.as4 ⟨SegT.seq, [23456, 300, 131073]⟩],
        PA.nextHop 9] := by
  have h := (UpdatePathAttrs4ByteAs_amended.2.2.1 [PA.other 1 0] [] [PA.nextHop 9]
    [AsSeg.as2 SegT.seq [23456, 300, 400]] [⟨SegT.seq, [131073]⟩]
    (by intro a ha; fin_cases ha; exact ⟨rfl, rfl⟩)
    (by intro a ha; fin_cases ha)
    (by intro a ha; fin_cases ha; exact ⟨rfl, rfl⟩)).2
    [⟨SegT.seq, [23456, 300, 131073]⟩] (by decide) (by decide)
  exact h

end GoBGP
